import Mathlib

/-!
# Verification of the Perl-config-to-YAML converter

A shallow embedding, in Lean 4, of the core of the repository's converter:

* `perl_to_yaml.py`   — the one-pass converter (`PerlExpression`,
  `PerlConfigConverter` with `_parse_value`, `_parse_line`, `convert_file`,
  `convert_all_files`);
* `perl_to_yaml_2.py` — the two-pass converter (`RequireResolver`,
  the second `VariableCollector` (which shadows the first at runtime),
  `ExpressionEvaluator`, `PerlConfigConverter.convert_files`);
* `extract_item_from_perl.py` — only its encoding-fallback file reading.

Strings are modelled as `List Char` (with `String` wrappers at the
boundaries), Python integers as `Int`, and Python floats as exact
rationals (`Rat`): the IEEE-754 rounding that Python performs is
abstracted away, which is sound for every theorem below because no
theorem depends on the identification of two distinct decimal literals
by rounding.  Python's per-character `str.isdigit` / `str.isspace` /
`\w` classes are modelled by their ASCII restrictions; every concrete
input used in a theorem is ASCII.  Regular expressions from the source
are embedded as deterministic scanners that implement the backtracking
behaviour of the specific patterns used (noted at each definition).
Recursions that are not structural carry an explicit fuel argument,
always invoked with fuel strictly larger than the input length, so that
every definition evaluates by kernel reduction.
-/

/-- Python values as they occur in the converter: `int`, `float`
(exact-rational abstraction), `str`, `None`, `list`, `dict`
(insertion-ordered association list). -/
inductive Value where
  | int : Int → Value
  | float : Rat → Value
  | str : String → Value
  | none : Value
  | list : List Value → Value
  | dict : List (String × Value) → Value

/-- Insertion-ordered dictionary lookup (`d.get(k)` / `d[k]`). -/
def dget {α : Type} (d : List (String × α)) (k : String) : Option α :=
  (d.find? (fun p => p.1 == k)).map (fun p => p.2)

/-- Insertion-ordered dictionary assignment `d[k] = v`: an existing key
keeps its position, a new key is appended (CPython dict semantics). -/
def dset {α : Type} (d : List (String × α)) (k : String) (v : α) :
    List (String × α) :=
  match d with
  | [] => [(k, v)]
  | (k₁, v₁) :: rest =>
      if k₁ == k then (k₁, v) :: rest else (k₁, v₁) :: dset rest k v

/-- `d.update(e)`: assign every entry of `e` into `d` in order. -/
def dupdate {α : Type} (d e : List (String × α)) : List (String × α) :=
  e.foldl (fun acc p => dset acc p.1 p.2) d

/-- The apostrophe character (written via its code point). -/
def squote : Char := Char.ofNat 39

/-- The double-quote character. -/
def dquote : Char := Char.ofNat 34

/-- Python `str.isspace` for one character (ASCII whitespace; the
source never feeds non-ASCII whitespace to these checks). -/
def isPySpace (c : Char) : Bool :=
  c == ' ' || c == '\t' || c == '\n' || c == '\r' ||
  c == Char.ofNat 11 || c == Char.ofNat 12

/-- The regex class `\w` (ASCII restriction). -/
def isWordChar (c : Char) : Bool :=
  c.isAlpha || c.isDigit || c == '_'

/-- Quote characters, the strip set of Python `value.strip('\x27\x22')`. -/
def isQuoteChar (c : Char) : Bool :=
  c == squote || c == dquote

/-- Drop matching characters from the end of a list. -/
def dropEndWhile (p : Char → Bool) (l : List Char) : List Char :=
  (l.reverse.dropWhile p).reverse

/-- Python `s.strip()`. -/
def pyStrip (l : List Char) : List Char :=
  dropEndWhile isPySpace (l.dropWhile isPySpace)

/-- Python `s.strip(cs)` for a character-set predicate. -/
def pyStripSet (p : Char → Bool) (l : List Char) : List Char :=
  dropEndWhile p (l.dropWhile p)

/-- Python `value.strip('\x27\x22')`: strip every leading and trailing
single or double quote. -/
def stripQuotes (l : List Char) : List Char :=
  pyStripSet isQuoteChar l

/-- Python `s.isdigit()` (ASCII restriction): nonempty and all digits. -/
def pyIsDigitStr (l : List Char) : Bool :=
  !l.isEmpty && l.all Char.isDigit

/-- Split on every occurrence of a character (Python `s.split(c)`). -/
def splitOnChar (sep : Char) : List Char → List (List Char)
  | [] => [[]]
  | c :: cs =>
      match splitOnChar sep cs with
      | [] => [[c]]
      | r :: rs => if c == sep then [] :: r :: rs else (c :: r) :: rs

/-- Does `sub` occur as a contiguous substring (Python `sub in s`)? -/
def hasSub (sub : List Char) : List Char → Bool
  | [] => sub.isEmpty
  | c :: cs => sub.isPrefixOf (c :: cs) || hasSub sub cs

/-- Numeral value of a digit string (most significant first). -/
def digitsToNat (l : List Char) : Nat :=
  l.foldl (fun a c => 10 * a + (c.toNat - 48)) 0

/-- Digits of `n` in reverse order, fuelled (fuel ≥ 1 suffices per digit). -/
def natDigitsRev : Nat → Nat → List Char
  | 0, _ => []
  | fuel + 1, n =>
      if n < 10 then [Char.ofNat (48 + n)]
      else Char.ofNat (48 + n % 10) :: natDigitsRev fuel (n / 10)

/-- Python `str(n)` for a natural number. -/
def strOfNat (n : Nat) : List Char :=
  (natDigitsRev (n + 1) n).reverse

/-- Python `str(i)` for an integer. -/
def strOfInt (i : Int) : List Char :=
  if i < 0 then '-' :: strOfNat i.natAbs else strOfNat i.natAbs

/-- No two adjacent underscores. -/
def noDoubleUnderscore : List Char → Bool
  | [] => true
  | [_] => true
  | a :: b :: rest =>
      !(a == '_' && b == '_') && noDoubleUnderscore (b :: rest)

/-- A valid CPython digit run with optional grouping underscores:
nonempty, digits and underscores only, no leading, trailing or doubled
underscore. -/
def validUDigits (l : List Char) : Bool :=
  !l.isEmpty && l.all (fun c => c.isDigit || c == '_') &&
  !(l.head? == some '_') && !(l.getLast? == some '_') &&
  noDoubleUnderscore l

/-- Python `int(s)` on an already-stripped string: optional sign, then
a valid underscore-grouped digit run; `Option.none` models `ValueError`. -/
def pyIntParse (l : List Char) : Option Int :=
  match l with
  | '+' :: rest =>
      if validUDigits rest then some (digitsToNat (rest.filter Char.isDigit))
      else Option.none
  | '-' :: rest =>
      if validUDigits rest then some (-(digitsToNat (rest.filter Char.isDigit) : Int))
      else Option.none
  | rest =>
      if validUDigits rest then some (digitsToNat (rest.filter Char.isDigit))
      else Option.none

/-- The unsigned part of Python `float(s)`: `digits [. digits]`,
`. digits` or `digits.`, with grouping underscores, then an optional
exponent.  Returns the exact rational (IEEE rounding abstracted).
`inf`/`nan` spellings are not modelled: in this code base `float` is
only reached on strings that contain a `.` or consist of digits and
dots, which those spellings never satisfy. -/
def pyFloatBody (l : List Char) : Option Rat :=
  let intPart := l.takeWhile (fun c => c.isDigit || c == '_')
  let rest₁ := l.drop intPart.length
  let intOk := intPart.isEmpty || validUDigits intPart
  match rest₁ with
  | '.' :: rest₂ =>
      let fracPart := rest₂.takeWhile (fun c => c.isDigit || c == '_')
      let rest₃ := rest₂.drop fracPart.length
      let fracOk := fracPart.isEmpty || validUDigits fracPart
      let iDigits := intPart.filter Char.isDigit
      let fDigits := fracPart.filter Char.isDigit
      if !intOk || !fracOk || (iDigits.isEmpty && fDigits.isEmpty) then Option.none
      else
        let mant : Rat :=
          (digitsToNat iDigits : Rat) +
            (digitsToNat fDigits : Rat) / ((10 : Rat) ^ fDigits.length)
        match rest₃ with
        | [] => some mant
        | e :: rest₄ =>
            if e == 'e' || e == 'E' then
              let (sgn, rest₅) :=
                match rest₄ with
                | '+' :: r => ((1 : Int), r)
                | '-' :: r => ((-1 : Int), r)
                | r => ((1 : Int), r)
              if validUDigits rest₅ then
                let ex : Nat := digitsToNat (rest₅.filter Char.isDigit)
                if sgn < 0 then some (mant / ((10 : Rat) ^ ex))
                else some (mant * ((10 : Rat) ^ ex))
              else Option.none
            else Option.none
  | 'e' :: rest₂ =>
      if validUDigits intPart then
        let mant : Rat := (digitsToNat (intPart.filter Char.isDigit) : Rat)
        let (sgn, rest₃) :=
          match rest₂ with
          | '+' :: r => ((1 : Int), r)
          | '-' :: r => ((-1 : Int), r)
          | r => ((1 : Int), r)
        if validUDigits rest₃ then
          let ex : Nat := digitsToNat (rest₃.filter Char.isDigit)
          if sgn < 0 then some (mant / ((10 : Rat) ^ ex))
          else some (mant * ((10 : Rat) ^ ex))
        else Option.none
      else Option.none
  | 'E' :: rest₂ =>
      if validUDigits intPart then
        let mant : Rat := (digitsToNat (intPart.filter Char.isDigit) : Rat)
        let (sgn, rest₃) :=
          match rest₂ with
          | '+' :: r => ((1 : Int), r)
          | '-' :: r => ((-1 : Int), r)
          | r => ((1 : Int), r)
        if validUDigits rest₃ then
          let ex : Nat := digitsToNat (rest₃.filter Char.isDigit)
          if sgn < 0 then some (mant / ((10 : Rat) ^ ex))
          else some (mant * ((10 : Rat) ^ ex))
        else Option.none
      else Option.none
  | [] =>
      if validUDigits intPart then
        some ((digitsToNat (intPart.filter Char.isDigit) : Rat))
      else Option.none
  | _ => Option.none

/-- Python `float(s)` on an already-stripped string; `Option.none`
models `ValueError`. -/
def pyFloatParse (l : List Char) : Option Rat :=
  match l with
  | '+' :: rest => pyFloatBody rest
  | '-' :: rest => (pyFloatBody rest).map Neg.neg
  | rest => pyFloatBody rest

/-- Python `s.replace(p, r)` (all non-overlapping occurrences, left to
right, the replacement is not rescanned), fuelled; one fuel unit per
consumed character, so `s.length + 1` always suffices. -/
def replaceAllF (p r : List Char) : Nat → List Char → List Char
  | _, [] => []
  | 0, s => s
  | fuel + 1, c :: cs =>
      if !p.isEmpty && p.isPrefixOf (c :: cs) then
        r ++ replaceAllF p r fuel ((c :: cs).drop p.length)
      else c :: replaceAllF p r fuel cs

/-- Python `s.replace(p, r)`. -/
def pyReplace (s p r : List Char) : List Char :=
  replaceAllF p r (s.length + 1) s

/-- Python `sep.join(xs)`. -/
def joinWith (sep : List Char) : List (List Char) → List Char
  | [] => []
  | [x] => x
  | x :: y :: rest => x ++ sep ++ joinWith sep (y :: rest)

/-- Join pieces with `", "` (Python `', '.join`). -/
def joinCommaSpace (xs : List (List Char)) : List Char :=
  joinWith [',', ' '] xs

/-- Least `k` (fuelled upward search) with `q * 10^k` integral. -/
def findDecK : Nat → Nat → Rat → Option Nat
  | 0, _, _ => Option.none
  | fuel + 1, k, q =>
      if (q * (10 : Rat) ^ k).den == 1 then some k
      else findDecK fuel (k + 1) q

/-- Python `str(f)` for a nonnegative float, on the exact-rational
abstraction: the terminating decimal expansion with at least one
fractional digit (`str(2.0) = "2.0"`).  A rational whose decimal does
not terminate (unreachable from any theorem in this file, since such a
value is never rendered) is shown as `num/den`. -/
def strOfFloatNN (q : Rat) : List Char :=
  match findDecK 1200 0 q with
  | some k =>
      let n := (q * (10 : Rat) ^ k).num.natAbs
      if k == 0 then strOfNat n ++ ['.', '0']
      else
        let ds := strOfNat n
        let ds := List.replicate (k + 1 - ds.length) '0' ++ ds
        ds.take (ds.length - k) ++ '.' :: ds.drop (ds.length - k)
  | Option.none => strOfNat q.num.natAbs ++ '/' :: strOfNat q.den

/-- Python `str(f)` for a float (exact-rational abstraction). -/
def strOfFloat (q : Rat) : List Char :=
  if q < 0 then '-' :: strOfFloatNN (-q) else strOfFloatNN q

/-- Python `repr(v)`, fuelled on nesting depth (string escaping is not
modelled; no theorem renders a string through `repr`). -/
def reprOfValueF : Nat → Value → List Char
  | 0, _ => []
  | fuel + 1, v =>
      match v with
      | .int n => strOfInt n
      | .float q => strOfFloat q
      | .str s => squote :: s.data ++ [squote]
      | .none => "None".data
      | .list xs =>
          '[' :: joinCommaSpace (xs.map (reprOfValueF fuel)) ++ [']']
      | .dict xs =>
          Char.ofNat 123 ::
            joinCommaSpace (xs.map (fun p =>
              squote :: p.1.data ++ squote :: ':' :: ' ' ::
                reprOfValueF fuel p.2)) ++ [Char.ofNat 125]

/-- Python `str(v)` as used when substituting a variable's value into
an expression string. -/
def strOfValue : Value → List Char
  | .int n => strOfInt n
  | .float q => strOfFloat q
  | .str s => s.data
  | .none => "None".data
  | .list xs => reprOfValueF 100 (.list xs)
  | .dict xs => reprOfValueF 100 (.dict xs)

/-- Tokens of the restricted arithmetic sublanguage that survives the
character allow-list (digits, whitespace and `+-*/.()`; `**` lexes as
one power token, as in Python). -/
inductive PyTok where
  | num : Value → PyTok
  | plus | minus | star | slash | pow | lparen | rparen

/-- Tokenizer for the allow-listed expression fragment, mirroring the
CPython tokenizer on that fragment: maximal-munch numbers
`digits [. digits]` / `. digits`, a lone `.` is a syntax error, and
adjacent number tokens are rejected later by the parser
(`eval("1.2.3")` raises).  `Option.none` models `SyntaxError`. -/
def pyLexF : Nat → List Char → Option (List PyTok)
  | 0, _ => Option.none
  | _, [] => some []
  | fuel + 1, c :: cs =>
      if isPySpace c then pyLexF fuel cs
      else if c.isDigit || c == '.' then
        let d₁ := (c :: cs).takeWhile Char.isDigit
        let r₁ := (c :: cs).drop d₁.length
        match r₁ with
        | '.' :: r₂ =>
            let d₂ := r₂.takeWhile Char.isDigit
            let r₃ := r₂.drop d₂.length
            if d₁.isEmpty && d₂.isEmpty then Option.none
            else
              let v : Value := .float
                ((digitsToNat d₁ : Rat) +
                  (digitsToNat d₂ : Rat) / ((10 : Rat) ^ d₂.length))
              (pyLexF fuel r₃).map (fun ts => .num v :: ts)
        | _ => (pyLexF fuel r₁).map (fun ts => .num (.int (digitsToNat d₁)) :: ts)
      else if c == '+' then (pyLexF fuel cs).map (fun ts => .plus :: ts)
      else if c == '-' then (pyLexF fuel cs).map (fun ts => .minus :: ts)
      else if c == '/' then (pyLexF fuel cs).map (fun ts => .slash :: ts)
      else if c == '(' then (pyLexF fuel cs).map (fun ts => .lparen :: ts)
      else if c == ')' then (pyLexF fuel cs).map (fun ts => .rparen :: ts)
      else if c == '*' then
        match cs with
        | '*' :: cs₂ => (pyLexF fuel cs₂).map (fun ts => .pow :: ts)
        | _ => (pyLexF fuel cs).map (fun ts => .star :: ts)
      else Option.none

/-- Python `+` on numbers (`int` stays `int`, any `float` contaminates). -/
def vAdd : Value → Value → Option Value
  | .int a, .int b => some (.int (a + b))
  | .int a, .float b => some (.float ((a : Rat) + b))
  | .float a, .int b => some (.float (a + (b : Rat)))
  | .float a, .float b => some (.float (a + b))
  | _, _ => Option.none

/-- Python `-` on numbers. -/
def vSub : Value → Value → Option Value
  | .int a, .int b => some (.int (a - b))
  | .int a, .float b => some (.float ((a : Rat) - b))
  | .float a, .int b => some (.float (a - (b : Rat)))
  | .float a, .float b => some (.float (a - b))
  | _, _ => Option.none

/-- Python `*` on numbers. -/
def vMul : Value → Value → Option Value
  | .int a, .int b => some (.int (a * b))
  | .int a, .float b => some (.float ((a : Rat) * b))
  | .float a, .int b => some (.float (a * (b : Rat)))
  | .float a, .float b => some (.float (a * b))
  | _, _ => Option.none

/-- A numeric value as a rational. -/
def valAsRat : Value → Option Rat
  | .int n => some (n : Rat)
  | .float q => some q
  | _ => Option.none

/-- Python `/` on numbers: always float (true division);
`Option.none` models `ZeroDivisionError`. -/
def vDiv (a b : Value) : Option Value :=
  match valAsRat a, valAsRat b with
  | some ra, some rb =>
      if rb == 0 then Option.none else some (.float (ra / rb))
  | _, _ => Option.none

/-- `q ^ i` for an integer exponent; `Option.none` models
`ZeroDivisionError` for `0 ** negative`. -/
def ratPowInt (q : Rat) (i : Int) : Option Rat :=
  if 0 ≤ i then some (q ^ i.toNat)
  else if q == 0 then Option.none
  else some ((q ^ (-i).toNat)⁻¹)

/-- Python `**` on numbers.  `int ** nonnegative int` is `int`;
otherwise float.  A non-integral exponent (whose exact result is
irrational or complex in general) is abstracted as a failed
evaluation; no theorem in this file exercises that case. -/
def vPow : Value → Value → Option Value
  | .int a, .int b =>
      if 0 ≤ b then some (.int (a ^ b.toNat))
      else (ratPowInt (a : Rat) b).map .float
  | .int a, .float e =>
      if e.den == 1 then (ratPowInt (a : Rat) e.num).map .float
      else Option.none
  | .float a, .int b => (ratPowInt a b).map .float
  | .float a, .float e =>
      if e.den == 1 then (ratPowInt a e.num).map .float
      else Option.none
  | _, _ => Option.none

/-- Python unary `-` on numbers. -/
def vNeg : Value → Option Value
  | .int a => some (.int (-a))
  | .float a => some (.float (-a))
  | _ => Option.none

/-- Parser modes for the recursive-descent parser of the expression
fragment (Python precedence: `+ -` < `* /` < unary `- +` < `**`,
with `**` right-associative and binding its right operand through
unary operators). -/
inductive PMode where
  | expr | exprLoop (acc : Value) | term | termLoop (acc : Value)
  | unary | power

/-- The parser-evaluator, fuelled (one unit per mode transition; the
wrapper supplies ample fuel).  Implements Python `eval` on the
allow-listed fragment; `Option.none` models a raised exception. -/
def pRun : Nat → PMode → List PyTok → Option (Value × List PyTok)
  | 0, _, _ => Option.none
  | fuel + 1, mode, ts =>
      match mode with
      | .expr =>
          match pRun fuel .term ts with
          | some (v, rest) => pRun fuel (.exprLoop v) rest
          | Option.none => Option.none
      | .exprLoop acc =>
          match ts with
          | .plus :: rest =>
              match pRun fuel .term rest with
              | some (v, rest₂) =>
                  match vAdd acc v with
                  | some w => pRun fuel (.exprLoop w) rest₂
                  | Option.none => Option.none
              | Option.none => Option.none
          | .minus :: rest =>
              match pRun fuel .term rest with
              | some (v, rest₂) =>
                  match vSub acc v with
                  | some w => pRun fuel (.exprLoop w) rest₂
                  | Option.none => Option.none
              | Option.none => Option.none
          | _ => some (acc, ts)
      | .term =>
          match pRun fuel .unary ts with
          | some (v, rest) => pRun fuel (.termLoop v) rest
          | Option.none => Option.none
      | .termLoop acc =>
          match ts with
          | .star :: rest =>
              match pRun fuel .unary rest with
              | some (v, rest₂) =>
                  match vMul acc v with
                  | some w => pRun fuel (.termLoop w) rest₂
                  | Option.none => Option.none
              | Option.none => Option.none
          | .slash :: rest =>
              match pRun fuel .unary rest with
              | some (v, rest₂) =>
                  match vDiv acc v with
                  | some w => pRun fuel (.termLoop w) rest₂
                  | Option.none => Option.none
              | Option.none => Option.none
          | _ => some (acc, ts)
      | .unary =>
          match ts with
          | .plus :: rest => pRun fuel .unary rest
          | .minus :: rest =>
              match pRun fuel .unary rest with
              | some (v, rest₂) => (vNeg v).map (fun w => (w, rest₂))
              | Option.none => Option.none
          | _ => pRun fuel .power ts
      | .power =>
          match ts with
          | .num v :: rest =>
              match rest with
              | .pow :: rest₂ =>
                  match pRun fuel .unary rest₂ with
                  | some (e, rest₃) => (vPow v e).map (fun w => (w, rest₃))
                  | Option.none => Option.none
              | _ => some (v, rest)
          | .lparen :: rest =>
              match pRun fuel .expr rest with
              | some (v, .rparen :: rest₂) =>
                  match rest₂ with
                  | .pow :: rest₃ =>
                      match pRun fuel .unary rest₃ with
                      | some (e, rest₄) => (vPow v e).map (fun w => (w, rest₄))
                      | Option.none => Option.none
                  | _ => some (v, rest₂)
              | _ => Option.none
          | _ => Option.none

/-- `eval(expr, {"__builtins__": {}}, {})` on the allow-listed
fragment; `Option.none` models any raised exception. -/
def pyEval (l : List Char) : Option Value :=
  match pyLexF (l.length + 1) l with
  | some ts =>
      match pRun ((ts.length + 2) * 8) .expr ts with
      | some (v, []) => some v
      | _ => Option.none
  | Option.none => Option.none

/-- The character allow-list of both evaluators:
`c.isdigit() or c.isspace() or c in '+-*/.()'`. -/
def allowedChar (c : Char) : Bool :=
  c.isDigit || isPySpace c || c == '+' || c == '-' || c == '*' ||
  c == '/' || c == '.' || c == '(' || c == ')'

/-- `ExpressionEvaluator.evaluate`'s substitution loop
(perl_to_yaml_2): for every store entry, in insertion order, plain
textual replacement of `"$" + name` by `str(value)`. -/
def eeSubst (vars : List (String × Value)) (e : List Char) : List Char :=
  vars.foldl (fun acc p => pyReplace acc ('$' :: p.1.data) (strOfValue p.2)) e

/-- `ExpressionEvaluator.evaluate` (perl_to_yaml_2): substitute, check
the allow-list, evaluate; any raised exception (disallowed characters,
or an evaluation error) is caught and the original unsubstituted
expression text is returned. -/
def eeEvaluate (vars : List (String × Value)) (expression : String) : Value :=
  let expr := eeSubst vars expression.data
  if expr.all allowedChar then
    match pyEval expr with
    | some v => v
    | Option.none => .str expression
  else .str expression

/-- The operator substrings `['+', '-', '*', '/', '**']` tested by
`PerlExpression.evaluate`'s bare-reference branch. -/
def peOps : List (List Char) :=
  [['+'], ['-'], ['*'], ['/'], ['*', '*']]

/-- The bare-variable-reference test of `PerlExpression.evaluate`:
`expression.startswith('$') and not any(op in expression for op in ...)`. -/
def peIsBareRef (e : List Char) : Bool :=
  (e.head? == some '$') && !(peOps.any (fun op => hasSub op e))

/-- The matches of `re.finditer(r'\$(\w+)', expr)`: every `"$" + word`
substring, scanned left to right, non-overlapping. -/
def scanVarRefsF : Nat → List Char → List (List Char)
  | 0, _ => []
  | _, [] => []
  | fuel + 1, c :: cs =>
      if c == '$' then
        let w := cs.takeWhile isWordChar
        if w.isEmpty then scanVarRefsF fuel cs
        else ('$' :: w) :: scanVarRefsF fuel (cs.drop w.length)
      else scanVarRefsF fuel cs

/-- `PerlExpression._resolve_variable`: strip `$` and look the name up
(`dict.get`, so an undefined name yields Python `None`). -/
def peResolve (vars : List (String × Value)) (varName : List Char) : Option Value :=
  dget vars (String.mk (pyStripSet (fun c => c == '$') varName))

/-- The substitution loop of `PerlExpression.evaluate`: for every
`\$\w+` match of the original expression, in order, if the variable
resolves, textually replace all occurrences of the matched text by
`str(value)` (the iterator was created on the original string, so the
match list is fixed up front). -/
def peSubst (vars : List (String × Value)) (e : List Char) : List Char :=
  (scanVarRefsF (e.length + 1) e).foldl (fun acc m =>
    match peResolve vars m with
    | some v => pyReplace acc m (strOfValue v)
    | Option.none => acc) e

/-- `PerlExpression.evaluate` (perl_to_yaml.py): a bare variable
reference returns the store value (or `None`); otherwise every matched
variable reference that resolves is textually replaced by `str(value)`,
the allow-list is checked, and the expression evaluated; any raised
exception is caught and the original expression text returned. -/
def peEvaluate (vars : List (String × Value)) (expression : String) : Value :=
  if peIsBareRef expression.data then
    match peResolve vars expression.data with
    | some v => v
    | Option.none => Value.none
  else
    let expr := peSubst vars expression.data
    if expr.all allowedChar then
      match pyEval expr with
      | some v => v
      | Option.none => .str expression
    else .str expression

/-- `\s*;` after the capture of `re.match(r'\$(\w+)\s*=\s*(.+?)\s*;', line)`:
the remainder, after greedily consumed whitespace, starts with `;`
(deterministic: `;` is not whitespace, so backtracking cannot help). -/
def semiAfterSpaces (cs : List Char) : Bool :=
  (cs.dropWhile isPySpace).head? == some ';'

/-- The lazy group `(.+?)` followed by `\s*;`: the shortest nonempty
prefix of newline-free characters after which `\s*;` matches. -/
def capFrom : List Char → Option (List Char)
  | [] => Option.none
  | c :: cs =>
      if c == '\n' then Option.none
      else if semiAfterSpaces cs then some [c]
      else (capFrom cs).map (fun cap => c :: cap)

/-- Backtracking over the greedy `\s*` before the lazy capture:
try consuming `k` leading characters first (the maximal whitespace
run), then fewer, as the regex engine does. -/
def tryCapK : Nat → List Char → Option (List Char)
  | 0, t => capFrom t
  | k + 1, t =>
      match capFrom (t.drop (k + 1)) with
      | some cap => some cap
      | Option.none => tryCapK k t

/-- `re.match(r'\$(\w+)\s*=\s*(.+?)\s*;', line)`, returning the two
captured groups (name, raw value).  `\w+` is maximal-munch (a shorter
match leaves a word character where `\s*=` must match, so backtracking
cannot succeed); the greedy/lazy interplay around the value group is
implemented by `tryCapK`. -/
def scalarMatch (line : List Char) : Option (List Char × List Char) :=
  match line with
  | '$' :: rest =>
      let name := rest.takeWhile isWordChar
      if name.isEmpty then Option.none
      else
        match (rest.drop name.length).dropWhile isPySpace with
        | '=' :: r₂ =>
            match tryCapK (r₂.takeWhile isPySpace).length r₂ with
            | some cap => some (name, cap)
            | Option.none => Option.none
        | _ => Option.none
  | _ => Option.none

/-- `re.match(r'@(\w+)\s*=\s*\(', line)` (or `%` for hashes),
returning the captured name. -/
def sigilArrayMatch (sigil : Char) (line : List Char) : Option (List Char) :=
  match line with
  | c :: rest =>
      if c == sigil then
        let name := rest.takeWhile isWordChar
        if name.isEmpty then Option.none
        else
          match (rest.drop name.length).dropWhile isPySpace with
          | '=' :: r₂ =>
              match r₂.dropWhile isPySpace with
              | '(' :: _ => some name
              | _ => Option.none
          | _ => Option.none
      else Option.none
  | [] => Option.none

/-- A match of `@\w+\s*=\s*\(` (or `%...`) anchored at the head,
returning the remainder after the match. -/
def matchLiteralHeader (sigil : Char) : List Char → Option (List Char)
  | c :: rest =>
      if c == sigil then
        let name := rest.takeWhile isWordChar
        if name.isEmpty then Option.none
        else
          match (rest.drop name.length).dropWhile isPySpace with
          | '=' :: r₂ =>
              match r₂.dropWhile isPySpace with
              | '(' :: r₃ => some r₃
              | _ => Option.none
          | _ => Option.none
      else Option.none
  | [] => Option.none

/-- `re.sub(r'@\w+\s*=\s*\(', '', s)` (or `%...`): delete every
non-overlapping match, scanning left to right, fuelled (one unit per
consumed character). -/
def subHeaderAllF (sigil : Char) : Nat → List Char → List Char
  | 0, s => s
  | _, [] => []
  | fuel + 1, c :: cs =>
      match matchLiteralHeader sigil (c :: cs) with
      | some rest => subHeaderAllF sigil fuel rest
      | Option.none => c :: subHeaderAllF sigil fuel cs

/-- `re.sub(r'@\w+\s*=\s*\(', '', s)`. -/
def subHeaderAll (sigil : Char) (s : List Char) : List Char :=
  subHeaderAllF sigil (s.length + 1) s

/-- `re.sub(r'\);.*$', '', s)` on a newline-free string: delete from
the first `);` to the end (`.` does not cross newlines, but the inputs
here are single joined lines that contain none). -/
def subTrailer : List Char → List Char
  | [] => []
  | c :: cs =>
      if c == ')' && cs.head? == some ';' then [] else c :: subTrailer cs

/-- `re.sub(r'#.*?($|\n)', '', s)` on a newline-free string: delete
from the first `#` to the end. -/
def subComments : List Char → List Char
  | [] => []
  | c :: cs => if c == '#' then [] else c :: subComments cs

/-- Apply a function to the first element only (`content[0] = f(content[0])`). -/
def mapFirst (f : List Char → List Char) : List (List Char) → List (List Char)
  | [] => []
  | x :: rest => f x :: rest

/-- Apply a function to the last element only (`content[-1] = f(content[-1])`);
on a one-element list this composes with a previous `mapFirst`, exactly
as the two sequential assignments in the source do. -/
def mapLast (f : List Char → List Char) : List (List Char) → List (List Char)
  | [] => []
  | [x] => [f x]
  | x :: y :: rest => x :: mapLast f (y :: rest)

/-- The numeric coercion of array/hash element parsing:
`if '.' in item: float(item) else int(item)`, with `ValueError`
falling back to the string itself. -/
def coerceNum (item : List Char) : Value :=
  if item.contains '.' then
    match pyFloatParse item with
    | some q => .float q
    | Option.none => .str (String.mk item)
  else
    match pyIntParse item with
    | some n => .int n
    | Option.none => .str (String.mk item)

/-- One element of `_parse_multiline_array`'s comma split: strip, skip
if empty, strip quotes, coerce. -/
def cleanArrayItem (item : List Char) : Option Value :=
  let it := pyStrip item
  if it.isEmpty then Option.none
  else some (coerceNum (stripQuotes it))

/-- `VariableCollector._parse_multiline_array` (perl_to_yaml_2, second
collector): strip the `@name = (` header from the first line and `);…`
from the last, join with spaces, strip comments, split on commas,
clean up each element. -/
def parseMLArray (content : List (List Char)) : List Value :=
  let content := mapLast subTrailer (mapFirst (subHeaderAll '@') content)
  let joined := subComments (joinWith [' '] content)
  (splitOnChar ',' joined).filterMap cleanArrayItem

/-- Key characters of the hash-pair regex class `[^'",=>\s]`. -/
def hashKeyChar (c : Char) : Bool :=
  !(isQuoteChar c || c == ',' || c == '=' || c == '>' || isPySpace c)

/-- Value characters of the hash-pair regex class `[^'",\s]`. -/
def hashValChar (c : Char) : Bool :=
  !(isQuoteChar c || c == ',' || isPySpace c)

/-- One anchored match attempt of
`['\"]*([^'\",=>\s]+)['\"]*\s*=>\s*['\"]*([^'\",\s]+)['\"]*`
returning the captures and the remainder after the match.
The greedy `+` groups stop at class boundaries, which never overlap
the following literal `=>`, so no backtracking is needed. -/
def matchHashPair (s : List Char) : Option ((List Char × List Char) × List Char) :=
  let s₁ := s.dropWhile isQuoteChar
  let key := s₁.takeWhile hashKeyChar
  if key.isEmpty then Option.none
  else
    let s₂ := (s₁.drop key.length).dropWhile isQuoteChar
    match s₂.dropWhile isPySpace with
    | '=' :: '>' :: s₄ =>
        let s₆ := (s₄.dropWhile isPySpace).dropWhile isQuoteChar
        let val := s₆.takeWhile hashValChar
        if val.isEmpty then Option.none
        else some ((key, val), (s₆.drop val.length).dropWhile isQuoteChar)
    | _ => Option.none

/-- `re.findall` of the hash-pair pattern: scan left to right,
non-overlapping, fuelled. -/
def scanHashPairsF : Nat → List Char → List (List Char × List Char)
  | 0, _ => []
  | _, [] => []
  | fuel + 1, c :: cs =>
      match matchHashPair (c :: cs) with
      | some (p, rest) => p :: scanHashPairsF fuel rest
      | Option.none => scanHashPairsF fuel cs

/-- `VariableCollector._parse_multiline_hash` (perl_to_yaml_2, second
collector). -/
def parseMLHash (content : List (List Char)) : List (String × Value) :=
  let content := mapLast subTrailer (mapFirst (subHeaderAll '%') content)
  let joined := subComments (joinWith [' '] content)
  (scanHashPairsF (joined.length + 1) joined).foldl
    (fun acc p => dset acc (String.mk p.1) (coerceNum p.2)) []

/-- A parsed right-hand side in the two-pass collector: a literal
value, or a deferred raw expression string. -/
inductive C2Item where
  | val : Value → C2Item
  | expr : List Char → C2Item

/-- The mutable parsing state of the second `VariableCollector`
(held on the instance, hence persisting across files). -/
structure C2State where
  currentState : Option String
  currentName : Option String
  currentContent : List (List Char)

/-- The collector's initial state (`__init__`). -/
def c2Init : C2State := ⟨Option.none, Option.none, []⟩

/-- `re.search(r'[\+\-\*\/\$]', value)`: the expression classifier. -/
def isExprChar (c : Char) : Bool :=
  c == '+' || c == '-' || c == '*' || c == '/' || c == '$'

/-- The scalar right-hand-side classification of the collectors:
expression if it contains `+ - * / $`; else `int` if all digits; else
`float` if digits after removing dots (raising `ValueError` — the
`.error` case — unless the dots form one well-placed decimal point);
else a string with surrounding quotes stripped. -/
def c2Scalar (value : List Char) : Except String C2Item :=
  if value.any isExprChar then .ok (.expr value)
  else if pyIsDigitStr value then .ok (.val (.int (digitsToNat value)))
  else if pyIsDigitStr (value.filter (fun c => !(c == '.'))) then
    match pyFloatParse value with
    | some q => .ok (.val (.float q))
    | Option.none => .error "ValueError: could not convert string to float"
  else .ok (.val (.str (String.mk (stripQuotes value))))

/-- `VariableCollector._parse_line` (perl_to_yaml_2, second collector):
the per-line state machine.  `.error` models an uncaught exception
propagating out of the call. -/
def c2ParseLine (st : C2State) (rawLine : String) :
    Except String (C2State × Option (String × C2Item)) :=
  let line := pyStrip rawLine.data
  if line.isEmpty || line.head? == some '#' then .ok (st, Option.none)
  else if st.currentState.isSome then
    let content := st.currentContent ++ [line]
    if [')', ';'].isSuffixOf line then
      let result : Value :=
        if st.currentState == some "array" then .list (parseMLArray content)
        else .dict (parseMLHash content)
      .ok (c2Init, st.currentName.map (fun n => (n, C2Item.val result)))
    else .ok ({ st with currentContent := content }, Option.none)
  else
    match sigilArrayMatch '@' line with
    | some name =>
        if [')', ';'].isSuffixOf line then
          .ok (st, some (String.mk name, .val (.list (parseMLArray [line]))))
        else .ok (⟨some "array", some (String.mk name), [line]⟩, Option.none)
    | Option.none =>
    match sigilArrayMatch '%' line with
    | some name =>
        if [')', ';'].isSuffixOf line then
          .ok (st, some (String.mk name, .val (.dict (parseMLHash [line]))))
        else .ok (⟨some "hash", some (String.mk name), [line]⟩, Option.none)
    | Option.none =>
    match scalarMatch line with
    | some (name, value) =>
        match c2Scalar value with
        | .ok item => .ok (st, some (String.mk name, item))
        | .error e => .error e
    | Option.none => .ok (st, Option.none)

/-- The line loop of `VariableCollector.collect_from_file`: an
exception stops the loop (the enclosing `try` logs it) and the dicts
collected so far are returned. -/
def c2CollectGo (st : C2State) (vars : List (String × Value))
    (exprs : List (String × List Char)) :
    List String → C2State × List (String × Value) × List (String × List Char)
  | [] => (st, vars, exprs)
  | line :: rest =>
      match c2ParseLine st line with
      | .error _ => (st, vars, exprs)
      | .ok (st₁, Option.none) => c2CollectGo st₁ vars exprs rest
      | .ok (st₁, some (name, item)) =>
          if name.data.isEmpty then c2CollectGo st₁ vars exprs rest
          else
            match item with
            | .expr e => c2CollectGo st₁ vars (dset exprs name e) rest
            | .val v => c2CollectGo st₁ (dset vars name v) exprs rest

/-- `VariableCollector.collect_from_file` (perl_to_yaml_2): the file is
abstracted to its decoded lines (`Option.none` models a decode
failure, whereupon the `except` swallows the error and both dicts come
back empty, the instance parser state unchanged). -/
def c2CollectFromFile (st : C2State) (file : Option (List String)) :
    C2State × List (String × Value) × List (String × List Char) :=
  match file with
  | Option.none => (st, [], [])
  | some lines => c2CollectGo st [] [] lines

/-- `PerlConfigConverter.convert_files` (perl_to_yaml_2) after require
resolution: one collector instance over the ordered files (its parser
state persists across files), literals and expressions accumulated per
product (the containing directory name, here given with each file),
then every deferred expression evaluated against that product's
literal variables only, results overriding the literal dict copy. -/
def convertOrderedFiles (files : List (String × Option (List String))) :
    List (String × List (String × Value)) :=
  let step := fun (acc : C2State ×
        List (String × List (String × Value)) ×
        List (String × List (String × List Char)))
      (file : String × Option (List String)) =>
    let (st, allVars, allExprs) := acc
    let product := file.1
    let allVars := if (dget allVars product).isSome then allVars
      else dset allVars product []
    let allExprs := if (dget allExprs product).isSome then allExprs
      else dset allExprs product []
    let (st₁, vars, exprs) := c2CollectFromFile st file.2
    let allVars := dset allVars product
      (dupdate ((dget allVars product).getD []) vars)
    let allExprs := dset allExprs product
      (dupdate ((dget allExprs product).getD []) exprs)
    (st₁, allVars, allExprs)
  let folded := files.foldl step (c2Init, [], [])
  let allVars := folded.2.1
  let allExprs := folded.2.2
  allVars.map (fun p =>
    let vars := p.2
    let exprs := (dget allExprs p.1).getD []
    (p.1, exprs.foldl (fun rd q => dset rd q.1 (eeEvaluate vars (String.mk q.2))) vars))

/-- The closing part of the alternative `['\"](.*?)['\"]`: the lazy
capture runs to the first quote character of either kind; a newline
before it makes the alternative fail (`.` does not match newlines). -/
def findQuoteEnd : List Char → Option (List Char × List Char)
  | [] => Option.none
  | c :: cs =>
      if isQuoteChar c then some ([], cs)
      else if c == '\n' then Option.none
      else (findQuoteEnd cs).map (fun p => (c :: p.1, p.2))

/-- One anchored match attempt of `['\"](.*?)['\"]|(\$\w+)`, returning
the two groups (one of them empty) and the remainder. -/
def matchQuotedOrVar : List Char → Option ((List Char × List Char) × List Char)
  | [] => Option.none
  | c :: cs =>
      if isQuoteChar c then
        match findQuoteEnd cs with
        | some (cap, rest) => some ((cap, []), rest)
        | Option.none => Option.none
      else if c == '$' then
        let w := cs.takeWhile isWordChar
        if w.isEmpty then Option.none
        else some (([], '$' :: w), cs.drop w.length)
      else Option.none

/-- `re.findall(r'[\'\"](.*?)[\'\"]|(\$\w+)', s)`: scan left to right,
non-overlapping, fuelled. -/
def scanQuotedOrVarF : Nat → List Char → List (List Char × List Char)
  | 0, _ => []
  | _, [] => []
  | fuel + 1, c :: cs =>
      match matchQuotedOrVar (c :: cs) with
      | some (p, rest) => p :: scanQuotedOrVarF fuel rest
      | Option.none => scanQuotedOrVarF fuel cs

/-- The comprehension `[... for v in values if v[0] or v[1]]` with the
token `v[0] or v[1]`: first group if nonempty, else second if
nonempty, else dropped. -/
def qvTokens (pairs : List (List Char × List Char)) : List (List Char) :=
  pairs.filterMap (fun p =>
    if !p.1.isEmpty then some p.1
    else if !p.2.isEmpty then some p.2
    else Option.none)

/-- The key class `[\w\-]` of the one-pass hash pattern. -/
def p1KeyChar (c : Char) : Bool := isWordChar c || c == '-'

/-- One anchored match attempt of
`['\"]?([\w\-]+)['\"]?\s*=>\s*(['\"][\w\-]+['\"]|\$\w+)`
(perl_to_yaml): the optional quotes are consumed greedily and cannot
cause a failing match to succeed (a quote can start neither the key
class nor `\s*=>`), and the second capture keeps its quotes. -/
def matchP1HashPair (s : List Char) : Option ((List Char × List Char) × List Char) :=
  let s₁ := match s with
    | c :: cs => if isQuoteChar c then cs else s
    | [] => s
  let key := s₁.takeWhile p1KeyChar
  if key.isEmpty then Option.none
  else
    let s₂ := s₁.drop key.length
    let s₃ := match s₂ with
      | c :: cs => if isQuoteChar c then cs else s₂
      | [] => s₂
    match s₃.dropWhile isPySpace with
    | '=' :: '>' :: s₄ =>
        match s₄.dropWhile isPySpace with
        | c :: cs =>
            if isQuoteChar c then
              let w := cs.takeWhile p1KeyChar
              if w.isEmpty then Option.none
              else
                match cs.drop w.length with
                | c₂ :: rest =>
                    if isQuoteChar c₂ then some ((key, c :: (w ++ [c₂])), rest)
                    else Option.none
                | [] => Option.none
            else if c == '$' then
              let w := cs.takeWhile isWordChar
              if w.isEmpty then Option.none
              else some ((key, '$' :: w), cs.drop w.length)
            else Option.none
        | [] => Option.none
    | _ => Option.none

/-- `re.findall` of the one-pass hash-pair pattern, fuelled. -/
def scanP1HashPairsF : Nat → List Char → List (List Char × List Char)
  | 0, _ => []
  | _, [] => []
  | fuel + 1, c :: cs =>
      match matchP1HashPair (c :: cs) with
      | some (p, rest) => p :: scanP1HashPairsF fuel rest
      | Option.none => scanP1HashPairsF fuel cs

/-- Is a value Python `None`? -/
def isNoneValue : Value → Bool
  | .none => true
  | _ => false

/-- The mutable state of the one-pass `PerlConfigConverter`
(perl_to_yaml): the multiline buffer lives on the long-lived converter
instance and `convert_file` clears only `variables`, so `in_multiline`
and `multiline_content` persist from one file to the next. -/
structure P1State where
  inMultiline : Bool
  currentVariable : Option String
  multilineContent : List (List Char)
  varStore : List (String × Value)

/-- `PerlConfigConverter.__init__` (perl_to_yaml). -/
def p1Init : P1State := ⟨false, Option.none, [], []⟩

/-- `PerlConfigConverter._parse_value` (perl_to_yaml): int if all
digits, float if digits after removing dots (`float` raising
`ValueError` — the `.error` case — on misplaced dots), an expression
evaluation if a `$` occurs, else the string with quotes stripped. -/
def p1ParseValue (vars : List (String × Value)) (valueStr : List Char) :
    Except String Value :=
  if pyIsDigitStr valueStr then .ok (.int (digitsToNat valueStr))
  else if pyIsDigitStr (valueStr.filter (fun c => !(c == '.'))) then
    match pyFloatParse valueStr with
    | some q => .ok (.float q)
    | Option.none => .error "ValueError: could not convert string to float"
  else if valueStr.contains '$' then .ok (peEvaluate vars (String.mk valueStr))
  else .ok (.str (String.mk (stripQuotes valueStr)))

/-- Parse a list of array tokens through `_parse_value`, propagating a
raised exception. -/
def p1ParseValues (vars : List (String × Value)) :
    List (List Char) → Except String (List Value)
  | [] => .ok []
  | t :: rest =>
      match p1ParseValue vars t with
      | .ok v => (p1ParseValues vars rest).map (fun vs => v :: vs)
      | .error e => .error e

/-- Build the hash dict `{k: self._parse_value(v) for k, v in pairs}`,
propagating a raised exception. -/
def p1ParsePairs (vars : List (String × Value)) :
    List (List Char × List Char) → Except String (List (String × Value))
  | [] => .ok []
  | p :: rest =>
      match p1ParseValue vars p.2 with
      | .ok v =>
          (p1ParsePairs vars rest).map (fun d => dset d (String.mk p.1) v)
      | .error e => .error e

/-- `{k: f(v) for ...}` evaluates pairs left to right; rebuild that
order from the right-folded helper. -/
def p1HashDict (vars : List (String × Value))
    (pairs : List (List Char × List Char)) : Except String (List (String × Value)) :=
  match pairs.foldl (fun acc p =>
      match acc with
      | .error e => .error e
      | .ok d =>
          match p1ParseValue vars p.2 with
          | .ok v => .ok (dset d (String.mk p.1) v)
          | .error e => .error e) (Except.ok []) with
  | .ok d => .ok d
  | .error e => .error e

/-- `PerlConfigConverter._parse_line` (perl_to_yaml).  Returns the
state after the call together with the outcome: `.ok` with an optional
`(name, value)` declaration, or `.error` for an uncaught exception —
in which case the returned state is the instance state at the moment
of the raise (mutations already performed are kept). -/
def p1ParseLine (st : P1State) (rawLine : String) :
    P1State × Except String (Option (String × Value)) :=
  let line := pyStrip rawLine.data
  if line.isEmpty || (line.head? == some '#' && !hasSub "Product:".data line) then
    (st, .ok Option.none)
  else if st.inMultiline then
    let buffered := st.multilineContent ++ [line]
    let stBuf := { st with multilineContent := buffered }
    if [')', ';'].isSuffixOf line then
      let content := joinWith [' '] buffered
      if content.head? == some '@' then
        let toks := qvTokens (scanQuotedOrVarF (content.length + 1) content)
        match p1ParseValues st.varStore toks with
        | .ok vals =>
            ({ stBuf with
                inMultiline := false,
                multilineContent := [] },
              .ok (some (st.currentVariable.getD "", .list vals)))
        | .error e => (stBuf, .error e)
      else if content.head? == some '%' then
        let pairs := scanP1HashPairsF (content.length + 1) content
        match p1HashDict st.varStore pairs with
        | .ok d =>
            ({ stBuf with
                inMultiline := false,
                multilineContent := [] },
              .ok (some (st.currentVariable.getD "", .dict d)))
        | .error e => (stBuf, .error e)
      else
        -- `result` was never bound: NameError raised at the `return`,
        -- after the state reset statements have already run
        ({ stBuf with
            inMultiline := false,
            multilineContent := [] },
          .error "NameError: name result is not defined")
    else (stBuf, .ok Option.none)
  else
    match scalarMatch line with
    | some (name, valueStr) =>
        match p1ParseValue st.varStore valueStr with
        | .ok v =>
            ({ st with varStore := dset st.varStore (String.mk name) v },
              .ok (some (String.mk name, v)))
        | .error e => (st, .error e)
    | Option.none =>
    match sigilArrayMatch '@' line with
    | some name =>
        if [')', ';'].isSuffixOf line then
          let toks := qvTokens (scanQuotedOrVarF (line.length + 1) line)
          match p1ParseValues st.varStore toks with
          | .ok vals => (st, .ok (some (String.mk name, .list vals)))
          | .error e => (st, .error e)
        else
          ({ st with
              inMultiline := true,
              currentVariable := some (String.mk name),
              multilineContent := [line] }, .ok Option.none)
    | Option.none =>
    match sigilArrayMatch '%' line with
    | some name =>
        if [')', ';'].isSuffixOf line then
          let pairs := scanP1HashPairsF (line.length + 1) line
          match p1HashDict st.varStore pairs with
          | .ok d => (st, .ok (some (String.mk name, .dict d)))
          | .error e => (st, .error e)
        else
          ({ st with
              inMultiline := true,
              currentVariable := some (String.mk name),
              multilineContent := [line] }, .ok Option.none)
    | Option.none => (st, .ok Option.none)

/-- The line loop of `convert_file`: collect declarations
(`if name and value is not None`), stopping at the first raised
exception, which `convert_file` re-raises. -/
def p1ConvertLines (st : P1State) (config : List (String × Value)) :
    List String → P1State × Except String (List (String × Value))
  | [] => (st, .ok config)
  | line :: rest =>
      match p1ParseLine st line with
      | (st₁, .error e) => (st₁, .error e)
      | (st₁, .ok Option.none) => p1ConvertLines st₁ config rest
      | (st₁, .ok (some (name, value))) =>
          if name.data.isEmpty || isNoneValue value then p1ConvertLines st₁ config rest
          else p1ConvertLines st₁ (dset config name value) rest

/-- `PerlConfigConverter.convert_file` (perl_to_yaml) for one file,
abstracted to its decoded lines (`Option.none` models a Shift_JIS
decode failure, which raises).  `self.variables.clear()` runs first;
the multiline state is NOT reset.  The per-product wrapping
`{product: config}` is done by the caller. -/
def p1ConvertFile (st : P1State) (file : Option (List String)) :
    P1State × Except String (List (String × Value)) :=
  let st₀ := { st with varStore := [] }
  match file with
  | Option.none => (st₀, .error "UnicodeDecodeError")
  | some lines => p1ConvertLines st₀ [] lines

/-- The file loop of `convert_all_files` (perl_to_yaml): every file is
attempted on the shared converter instance; an exception from
`convert_file` is caught, recorded, and the loop continues; a success
merges `{product: config}` into the result dict. -/
def p1ConvertAllGo (st : P1State)
    (outcomes : List (String × Except String (List (String × Value))))
    (rd : List (String × List (String × Value))) :
    List (String × Option (List String)) →
      List (String × Except String (List (String × Value))) ×
        List (String × List (String × Value))
  | [] => (outcomes, rd)
  | f :: rest =>
      match p1ConvertFile st f.2 with
      | (st₁, .error e) => p1ConvertAllGo st₁ (outcomes ++ [(f.1, .error e)]) rd rest
      | (st₁, .ok config) =>
          p1ConvertAllGo st₁ (outcomes ++ [(f.1, .ok config)])
            (dset rd f.1 config) rest

/-- `PerlConfigConverter.convert_all_files` (perl_to_yaml), the
directory walk abstracted to the resulting file list: returns the
per-file outcomes and the merged result dict. -/
def p1ConvertAll (files : List (String × Option (List String))) :
    List (String × Except String (List (String × Value))) ×
      List (String × List (String × Value)) :=
  p1ConvertAllGo p1Init [] [] files

/-- The closing `['\"];` of the lazy group in
`require\s+['\"](.*?)['\"];`: capture up to the first quote character
that is immediately followed by `;`, returning the remainder after the
`;`; a newline inside the capture makes the match fail. -/
def findRequireEnd : List Char → Option (List Char × List Char)
  | [] => Option.none
  | c :: cs =>
      if isQuoteChar c && cs.head? == some ';' then some ([], cs.drop 1)
      else if c == '\n' then Option.none
      else (findRequireEnd cs).map (fun p => (c :: p.1, p.2))

/-- One anchored match attempt of `require\s+['\"](.*?)['\"];`
(the pattern has no word boundary, exactly as in the source). -/
def matchRequire (s : List Char) : Option (List Char × List Char) :=
  if "require".data.isPrefixOf s then
    let r₁ := s.drop 7
    let sp := r₁.takeWhile isPySpace
    if sp.isEmpty then Option.none
    else
      match r₁.drop sp.length with
      | q :: r₂ =>
          if isQuoteChar q then findRequireEnd r₂
          else Option.none
      | [] => Option.none
  else Option.none

/-- `re.finditer(r'require\s+[\'\"](.*?)[\'\"];', content)`: the
captured required paths, scanned left to right, non-overlapping,
fuelled.  (`_find_require_file` counts matches of the same pattern
without the capture group; the match set is identical.) -/
def scanRequiresF : Nat → List Char → List (List Char)
  | 0, _ => []
  | _, [] => []
  | fuel + 1, c :: cs =>
      match matchRequire (c :: cs) with
      | some (path, rest) => path :: scanRequiresF fuel rest
      | Option.none => scanRequiresF fuel cs

/-- The conventional aggregator file names tried first by
`RequireResolver._find_require_file`. -/
def requirePatterns : List String := ["require.pl", "requires.pl", "require_all.pl"]

/-- `RequireResolver._find_require_file`.  The file system is
abstracted to a flat list of (file name, decoded content) pairs in
directory-iteration order.  If no conventional name exists, the file
with strictly the most require statements wins (first of a tie, since
the comparison is strict); none at all raises `FileNotFoundError`. -/
def findRequireFile (fs : List (String × String)) : Except String (String × String) :=
  match requirePatterns.findSome? (fun pat => fs.find? (fun f => f.1 == pat)) with
  | some f => .ok f
  | Option.none =>
      let best := fs.foldl (fun (acc : Nat × Option (String × String)) f =>
        let cnt := (scanRequiresF (f.2.data.length + 1) f.2.data).length
        if cnt > acc.1 then (cnt, some f) else acc) (0, Option.none)
      match best.2 with
      | some f => .ok f
      | Option.none => .error "No require file found"

/-- `RequireResolver._resolve_path` in the flat file-system model:
the relative-to-referencing-file, relative-to-root and recursive
searches all reduce to membership of the bare name. -/
def resolvePath (fs : List (String × String)) (req : String) : Except String String :=
  if fs.any (fun f => f.1 == req) then .ok req
  else .error ("Could not resolve require path: " ++ req)

/-- The match loop of `RequireResolver._parse_requires`: a resolution
failure raises inside the enclosing `try`, which logs it and returns
the paths collected so far. -/
def parseRequiresGo (fs : List (String × String)) (acc : List String) :
    List (List Char) → List String
  | [] => acc
  | p :: rest =>
      match resolvePath fs (String.mk p) with
      | .ok r => parseRequiresGo fs (acc ++ [r]) rest
      | .error _ => acc

/-- `RequireResolver._parse_requires` applied to one file's content. -/
def parseRequires (fs : List (String × String)) (content : String) : List String :=
  parseRequiresGo fs [] (scanRequiresF (content.data.length + 1) content.data)

/-- `RequireResolver.get_file_order`: find the aggregator, then take
the requires of that one file, in order.  No recursion into required
files takes place and no cycle check of any kind exists; the only
error path is the missing-aggregator `FileNotFoundError`. -/
def getFileOrder (fs : List (String × String)) : Except String (List String) :=
  match findRequireFile fs with
  | .ok f => .ok (parseRequires fs f.2)
  | .error e => .error e

/-- A source file abstracted by the outcome of each decode attempt:
`utf8` / `shiftJis` / `cp932` is `some text` when the file's bytes are
valid under that codec (the codecs themselves are external library
functions, so they are modelled by their outcomes). -/
structure EncodedFile where
  utf8 : Option String
  shiftJis : Option String
  cp932 : Option String

/-- The file reading of `extract_test_info_from_file`
(extract_item_from_perl.py): try UTF-8; on `UnicodeDecodeError` try
Shift_JIS; on a second failure give up on the file (it returns `[]`).
No third codec is attempted. -/
def extractReadFile (f : EncodedFile) : Option String :=
  match f.utf8 with
  | some c => some c
  | Option.none =>
      match f.shiftJis with
      | some c => some c
      | Option.none => Option.none

/-- The file reading of both converters (perl_to_yaml.py
`convert_file`, perl_to_yaml_2.py `collect_from_file` and
`RequireResolver`): a single `open(..., encoding='shift_jis')` with no
fallback of any kind. -/
def converterReadFile (f : EncodedFile) : Option String := f.shiftJis

/-- Modelled from the spec: the decode chain the specification
describes — "attempt UTF-8 first; on decode failure, fall back to a
legacy Japanese single-byte-compatible encoding, then a vendor variant
of that encoding"; only a file valid under none of the three is a hard
per-file failure.  Stated only for comparison against the code's
actual reading functions. -/
def specDecodeChain (f : EncodedFile) : Option String :=
  match f.utf8 with
  | some c => some c
  | Option.none =>
      match f.shiftJis with
      | some c => some c
      | Option.none => f.cp932

/-- Head-of-list predicate holder: the first character (if any) does
not satisfy `p`. -/
def headNotB (p : Char → Bool) : List Char → Bool
  | [] => true
  | c :: _ => !p c

/-- Characters of a value `v` for which the scalar line `$x = 'v';`
round-trips: no statement terminator, no newline, and none of the
expression-classifier characters `+ - * / $`. -/
def goodC4Char (c : Char) : Bool :=
  !(c == ';' || c == '\n' || isExprChar c)

/-- The scalar assignment line `$x = 'v';` for a given `v`. -/
def c4Line (v : String) : String :=
  String.mk ('$' :: 'x' :: ' ' :: '=' :: ' ' :: squote :: v.data ++ [squote, ';'])

/-- Characters allowed inside an array item for the multi-line/
single-line equivalence: no comma (element separator), no comment
marker, no `;` or `@` (which the trailer/header regexes react to),
no newline. -/
def goodItemChar (c : Char) : Bool :=
  !(c == ',' || c == '#' || c == ';' || c == '@' || c == '\n')

/-- A well-formed array item: nonempty, already stripped (no leading
or trailing whitespace), and all characters allowed. -/
def goodItemB (i : String) : Bool :=
  !i.data.isEmpty && headNotB isPySpace i.data &&
  headNotB isPySpace i.data.reverse && i.data.all goodItemChar

/-- A well-formed array name: a nonempty `\w+` run. -/
def goodNameB (n : String) : Bool :=
  !n.data.isEmpty && n.data.all isWordChar

/-- The single-line array literal `@name = (i1, i2, ...);`. -/
def arraySingleLine (name : String) (items : List String) : String :=
  String.mk ('@' :: name.data ++ " = (".data ++
    joinWith [',', ' '] (items.map String.data) ++ [')', ';'])

/-- The multi-line form of the same array literal: the opening
`@name = (`, one item per line each followed by a comma, and a closing
`);` line. -/
def arrayMultiLines (name : String) (items : List String) : List String :=
  String.mk ('@' :: name.data ++ " = (".data) ::
    items.map (fun i => String.mk (i.data ++ [','])) ++ [String.mk [')', ';']]

/-- The element list both array forms should parse to. -/
def targetElems (items : List String) : List Value :=
  items.map (fun i => coerceNum (stripQuotes i.data))

/-! ## Claim theorems: the concrete, fully evaluated ones -/

/-- C9: in the two-pass converter, each deferred expression is
evaluated only against the variables whose right-hand side was a
literal; a variable computed from an expression is never visible to
other expressions.  On `$a = 1; $b = $a + 1; $c = $b * 2;` the
variable `b` resolves to `2` (from the literal `a`), while `c` falls
back to its original text `$b * 2` because `b` is not in the literal
store. -/
theorem C9_two_pass_literals_only :
    convertOrderedFiles [("P", some ["$a = 1;", "$b = $a + 1;", "$c = $b * 2;"])] =
      [("P", [("a", Value.int 1), ("b", Value.int 2), ("c", Value.str "$b * 2")])] := rfl

/-- C2 counterexample: the claim asserts that reversing the two
statements leaves `b` unresolved with its original text, citing
`PerlConfigConverter.convert_files` of perl_to_yaml_2; but that
converter collects all literals before evaluating any expression, so
the reversed order `$b = $a + 1; $a = 1;` still resolves `b` to the
number `2`, not to the text `$a + 1`. -/
theorem C2_counterexample :
    convertOrderedFiles [("P", some ["$b = $a + 1;", "$a = 1;"])] =
      [("P", [("a", Value.int 1), ("b", Value.int 2)])] ∧
    Value.int 2 ≠ Value.str "$a + 1" :=
  ⟨rfl, fun h => Value.noConfusion h⟩

/-- C2 amended: order sensitivity holds in the one-pass converter
(perl_to_yaml): `$a = 1; $b = $a + 1;` resolves `b = 2` while the
reversed order leaves `b` as the original text `$a + 1`.  In the
two-pass converter (perl_to_yaml_2), `b` resolves to `2` in both
orders, because all literal variables are collected before any
deferred expression is evaluated. -/
theorem C2_amended :
    (p1ConvertAll [("P", some ["$a = 1;", "$b = $a + 1;"])]).2 =
      [("P", [("a", Value.int 1), ("b", Value.int 2)])] ∧
    (p1ConvertAll [("P", some ["$b = $a + 1;", "$a = 1;"])]).2 =
      [("P", [("b", Value.str "$a + 1"), ("a", Value.int 1)])] ∧
    convertOrderedFiles [("P", some ["$a = 1;", "$b = $a + 1;"])] =
      [("P", [("a", Value.int 1), ("b", Value.int 2)])] ∧
    convertOrderedFiles [("P", some ["$b = $a + 1;", "$a = 1;"])] =
      [("P", [("a", Value.int 1), ("b", Value.int 2)])] :=
  ⟨rfl, rfl, rfl, rfl⟩

/-- C3: on the cyclic require graph `A.pl requires B.pl; B.pl requires
A.pl`, `RequireResolver.get_file_order` raises no cycle error: it
reads requires only from the single aggregator file (here `A.pl`, the
first file with the maximal require count), never recurses, and
silently returns `[B.pl]`.  The embedded function's only error path is
the missing-aggregator `FileNotFoundError`; no cycle detection exists
anywhere in it. -/
theorem C3_cycle_not_detected :
    getFileOrder [("A.pl", "require 'B.pl';"), ("B.pl", "require 'A.pl';")] =
      Except.ok ["B.pl"] := rfl

/-- C6: the one-pass converter's multiline state is instance state
that `convert_file` never resets.  After a file ending inside an
unterminated `@arr = (` literal, no malformed-input error is reported
(the file yields an empty config with an `ok` outcome), and the
buffered state leaks into the next file: the next file's first line
`'v');` completes the stale literal, so `arr` appears in the SECOND
file's output — while the same second file parsed from a fresh state
yields only its own `y`. -/
theorem C6_state_leak :
    (p1ConvertAll [("P1", some ["@arr = ("]), ("P2", some ["'v');", "$y = 'z';"])]).1 =
      [("P1", Except.ok []),
        ("P2", Except.ok [("arr", Value.list [Value.str "v"]), ("y", Value.str "z")])] ∧
    (p1ConvertAll [("P2", some ["'v');", "$y = 'z';"])]).2 =
      [("P2", [("y", Value.str "z")])] :=
  ⟨rfl, rfl⟩

/-- C1 counterexample: `PerlExpression.evaluate` on the bare reference
`$x` with an empty store: the substituted expression (`$x` itself)
contains characters outside the allow-list, yet the function returns
Python `None` (the `dict.get` default), not the original expression
text. -/
theorem C1_counterexample :
    ((peSubst [] "$x".data).all allowedChar = false ∧
      peEvaluate [] "$x" = Value.none) ∧
    Value.none ≠ Value.str "$x" :=
  ⟨⟨rfl, rfl⟩, fun h => Value.noConfusion h⟩

/-- C4 counterexample: for `v = "a+b"` the line `$x = 'a+b';` is
classified as an expression (the `+` triggers the classifier), the
deferred evaluation fails the allow-list, and the resolved value of
`x` is the raw text `'a+b'` — quotes retained — not `a+b` with quotes
stripped. -/
theorem C4_counterexample :
    convertOrderedFiles [("P", some ["$x = 'a+b';"])] =
      [("P", [("x", Value.str "'a+b'")])] ∧
    Value.str "'a+b'" ≠ Value.str "a+b" :=
  ⟨rfl, fun h => by simp at h⟩

/-- C7 counterexample: a file whose bytes are valid only under the
vendor variant (CP932) is a hard failure for the extractor (which
tries only UTF-8 then Shift_JIS), though the spec's chain would decode
it; and a file valid only under UTF-8 is a failure for the converters
(which try only Shift_JIS), though the spec's chain decodes it
first. -/
theorem C7_counterexample :
    extractReadFile ⟨Option.none, Option.none, some "t"⟩ = Option.none ∧
    specDecodeChain ⟨Option.none, Option.none, some "t"⟩ = some "t" ∧
    converterReadFile ⟨some "t", Option.none, Option.none⟩ = Option.none ∧
    specDecodeChain ⟨some "t", Option.none, Option.none⟩ = some "t" :=
  ⟨rfl, rfl, rfl, rfl⟩

/-- C7 amended: the extractor attempts UTF-8 then Shift_JIS only — a
file is a hard per-file failure exactly when both of those fail,
regardless of any vendor-variant validity — and the converters attempt
only Shift_JIS, with no fallback chain at all. -/
theorem C7_amended :
    (∀ f : EncodedFile,
        (extractReadFile f = Option.none ↔
          (f.utf8 = Option.none ∧ f.shiftJis = Option.none))) ∧
    (∀ f : EncodedFile, converterReadFile f = f.shiftJis) := by
  constructor
  · intro f
    obtain ⟨u, s, c⟩ := f
    cases u <;> cases s <;> simp [extractReadFile]
  · intro f
    rfl

/-- C8 counterexample: the file `P2` parses successfully in isolation
(yielding `y = "ok"`), but when it follows a file `P1` that fails with
an exception inside a multi-line literal (`float('1.2.3')` raising
`ValueError`), the leaked parser state swallows `P2`'s lines and its
output is empty — so a failure in one file is not without effect on
the output of other files.  The claim's guarantee fails. -/
theorem C8_counterexample :
    (p1ConvertAll [("P2", some ["$y = 'ok';"])]).2 =
      [("P2", [("y", Value.str "ok")])] ∧
    (p1ConvertAll [("P1", some ["@a = (", "'1.2.3');"]),
        ("P2", some ["$y = 'ok';"])]).1 =
      [("P1", Except.error "ValueError: could not convert string to float"),
        ("P2", Except.ok [])] ∧
    (p1ConvertAll [("P1", some ["@a = (", "'1.2.3');"]),
        ("P2", some ["$y = 'ok';"])]).2 =
      [("P2", [])] :=
  ⟨rfl, rfl, rfl⟩

/-- C1 amended: the fallback-to-original-text guarantee holds as
stated for `ExpressionEvaluator.evaluate` (perl_to_yaml_2): whenever
the substituted expression fails the character allow-list, the
original unsubstituted text is returned and no exception escapes (the
embedded function is total).  For `PerlExpression.evaluate`
(perl_to_yaml) the same holds, provided the expression is not a single
bare variable reference (`$name` with no arithmetic operator in the
text): a bare reference short-circuits before the allow-list check and
returns the stored value — or Python `None` — instead of the original
text. -/
theorem C1_amended :
    (∀ (vars : List (String × Value)) (e : String),
        (eeSubst vars e.data).all allowedChar = false →
        eeEvaluate vars e = Value.str e) ∧
    (∀ (vars : List (String × Value)) (e : String),
        peIsBareRef e.data = false →
        (peSubst vars e.data).all allowedChar = false →
        peEvaluate vars e = Value.str e) := by
  constructor
  · intro vars e h
    unfold eeEvaluate
    simp [h]
  · intro vars e hb h
    unfold peEvaluate
    simp [hb, h]

/-- Witness for C1 amended at the concrete input `$a + b` with an
empty store: the substituted text keeps letters and `$`, fails the
allow-list, and both evaluators return the original text. -/
theorem C1_amended_witness :
    ((eeSubst [] "$a + b".data).all allowedChar = false ∧
      eeEvaluate [] "$a + b" = Value.str "$a + b") ∧
    (peIsBareRef "$a + b".data = false ∧
      (peSubst [] "$a + b".data).all allowedChar = false ∧
      peEvaluate [] "$a + b" = Value.str "$a + b") :=
  ⟨⟨by decide, C1_amended.1 [] "$a + b" (by decide)⟩,
    ⟨by decide, by decide, C1_amended.2 [] "$a + b" (by decide) (by decide)⟩⟩

/-- Every file produces exactly one outcome, whatever happens: the
loop of `convert_all_files` catches per-file exceptions and
continues. -/
theorem p1ConvertAllGo_names
    (files : List (String × Option (List String))) :
    ∀ (st : P1State)
      (outcomes : List (String × Except String (List (String × Value))))
      (rd : List (String × List (String × Value))),
      ((p1ConvertAllGo st outcomes rd files).1).map Prod.fst =
        outcomes.map Prod.fst ++ files.map Prod.fst := by
  induction files with
  | nil => intro st outcomes rd; simp [p1ConvertAllGo]
  | cons f rest ih =>
      intro st outcomes rd
      unfold p1ConvertAllGo
      rcases h : p1ConvertFile st f.2 with ⟨st₁, r⟩
      cases r with
      | error e => simp [ih]
      | ok config => simp [ih]

/-- C8 amended: a per-file failure does not abort the run — every file
in the sequence is attempted and receives exactly one outcome, in
order, and the failing file itself contributes no output.  However,
the converter's parser state persists across files, so "produces
output for every file that parses successfully regardless of failures
in other files" does not hold: an exception raised inside a
multi-line literal leaves the multiline flag set and corrupts the next
file's parse (see the counterexample); the guarantee is only that
processing continues, not that later files are unaffected. -/
theorem C8_amended :
    (∀ files : List (String × Option (List String)),
        ((p1ConvertAll files).1).map Prod.fst = files.map Prod.fst) ∧
    (p1ConvertAll [("P1", some ["@a = (", "'1.2.3');"]),
        ("P2", some ["$y = 'ok';"])]).1 =
      [("P1", Except.error "ValueError: could not convert string to float"),
        ("P2", Except.ok [])] ∧
    (p1ConvertAll [("P1", Option.none), ("P2", some ["$y = 'ok';"])]).2 =
      [("P2", [("y", Value.str "ok")])] := by
  refine ⟨fun files => ?_, rfl, rfl⟩
  simpa using p1ConvertAllGo_names files p1Init [] []

/-! ## Helper lemmas for the universal theorems -/

theorem aux_option_beq_some {a b : Char} : (some a == some b) = (a == b) := rfl

theorem aux_dropWhile_head {p : Char → Bool} {l : List Char}
    (h : headNotB p l = true) : l.dropWhile p = l := by
  cases l with
  | nil => rfl
  | cons c cs =>
      simp only [headNotB, Bool.not_eq_true'] at h
      simp [List.dropWhile_cons, h]

theorem aux_pyStrip_id {l : List Char}
    (h₁ : headNotB isPySpace l = true) (h₂ : headNotB isPySpace l.reverse = true) :
    pyStrip l = l := by
  unfold pyStrip dropEndWhile
  rw [aux_dropWhile_head h₁, aux_dropWhile_head h₂, List.reverse_reverse]

theorem aux_semi_false {y : List Char}
    (hy : ∀ c ∈ y, (c == ';') = false) :
    semiAfterSpaces (y ++ [squote, ';']) = false := by
  induction y with
  | nil => decide
  | cons c y' ih =>
      unfold semiAfterSpaces
      by_cases hc : isPySpace c = true
      · simp only [List.cons_append, List.dropWhile_cons, hc, if_true]
        have := ih (fun d hd => hy d (List.mem_cons_of_mem _ hd))
        unfold semiAfterSpaces at this
        exact this
      · simp only [List.cons_append, List.dropWhile_cons,
          Bool.not_eq_true] at hc ⊢
        simp only [hc, if_false, List.head?_cons, aux_option_beq_some]
        exact hy c (List.mem_cons_self _ _)

theorem aux_capFrom_quoted {x : List Char}
    (hx : ∀ c ∈ x, (c == ';') = false ∧ (c == '\n') = false) :
    capFrom (x ++ [squote, ';']) = some (x ++ [squote]) := by
  induction x with
  | nil => decide
  | cons c x' ih =>
      have h₁ : (c == '\n') = false := (hx c (List.mem_cons_self _ _)).2
      have h₂ : semiAfterSpaces (x' ++ [squote, ';']) = false :=
        aux_semi_false (fun d hd => (hx d (List.mem_cons_of_mem _ hd)).1)
      have h₃ := ih (fun d hd => hx d (List.mem_cons_of_mem _ hd))
      unfold capFrom
      simp [h₁, h₂, h₃]

theorem aux_scalarMatch_c4 {v : List Char}
    (hv : ∀ c ∈ v, (c == ';') = false ∧ (c == '\n') = false) :
    scalarMatch ('$' :: 'x' :: ' ' :: '=' :: ' ' :: squote :: v ++ [squote, ';']) =
      some (['x'], squote :: v ++ [squote]) := by
  have hcap : capFrom ((squote :: v) ++ [squote, ';']) =
      some ((squote :: v) ++ [squote]) := by
    refine aux_capFrom_quoted ?_
    intro c hc
    rcases List.mem_cons.mp hc with h | h
    · subst h; exact ⟨by decide, by decide⟩
    · exact hv c h
  have w1 : isWordChar 'x' = true := by decide
  have w2 : isWordChar ' ' = false := by decide
  have s1 : isPySpace ' ' = true := by decide
  have s2 : isPySpace '=' = false := by decide
  have s3 : isPySpace squote = false := by decide
  unfold scalarMatch
  simp only [List.cons_append, List.takeWhile_cons, List.dropWhile_cons,
    w1, w2, s1, s2, s3, if_true, if_false, Bool.false_eq_true]
  simp only [List.isEmpty_cons, List.length_cons, List.length_nil,
    List.drop_succ_cons, List.drop_zero, List.takeWhile_nil]
  simp only [if_neg (by simp : ¬(false = true)), List.dropWhile_cons, s1, if_true,
    s2, if_false, List.takeWhile_cons, s3, List.length_cons, List.length_nil]
  simp only [List.cons_append] at hcap
  unfold tryCapK
  simp only [List.drop_succ_cons, List.drop_zero, hcap]


theorem aux_stripQuotes_wrap {v : List Char}
    (h₁ : headNotB isQuoteChar v = true) (h₂ : headNotB isQuoteChar v.reverse = true) :
    stripQuotes (squote :: v ++ [squote]) = v := by
  unfold stripQuotes pyStripSet dropEndWhile
  have hq : isQuoteChar squote = true := by decide
  cases v with
  | nil => decide
  | cons c v' =>
      have hc : isQuoteChar c = false := by
        simpa [headNotB] using h₁
      simp only [List.cons_append, List.dropWhile_cons, hq, if_true, hc,
        Bool.false_eq_true, if_false]
      rw [show c :: (v' ++ [squote]) = (c :: v') ++ [squote] from rfl,
        List.reverse_append]
      simp only [List.reverse_cons, List.reverse_nil, List.nil_append,
        List.singleton_append, List.dropWhile_cons, hq, if_true]
      rw [List.reverse_cons] at h₂
      rw [aux_dropWhile_head h₂, ← List.reverse_cons, List.reverse_reverse]
theorem aux_pyStrip_snoc_id {l : List Char} {a c : Char}
    (ha : isPySpace a = false) (hc : isPySpace c = false) :
    pyStrip (a :: (l ++ [c])) = a :: (l ++ [c]) := by
  refine aux_pyStrip_id ?_ ?_
  · simp [headNotB, ha]
  · rw [show a :: (l ++ [c]) = (a :: l) ++ [c] from rfl, List.reverse_append]
    simp [headNotB, hc]

theorem aux_c2Scalar_quoted {v : List Char}
    (hgood : ∀ c ∈ v, goodC4Char c = true)
    (h₁ : headNotB isQuoteChar v = true) (h₂ : headNotB isQuoteChar v.reverse = true) :
    c2Scalar (squote :: v ++ [squote]) = .ok (.val (.str (String.mk v))) := by
  have hexpr : ∀ c ∈ v, isExprChar c = false := by
    intro c hc
    have := hgood c hc
    unfold goodC4Char at this
    simp only [Bool.not_eq_true', Bool.or_eq_false_iff] at this
    exact this.2
  have hany : (squote :: v ++ [squote]).any isExprChar = false := by
    simp only [List.cons_append, List.any_cons, List.any_append,
      List.any_cons, List.any_nil]
    have : v.any isExprChar = false := by
      simp only [List.any_eq_false]
      intro c hc
      simp [hexpr c hc]
    simp [this, (by decide : isExprChar squote = false)]
  have hdig : pyIsDigitStr (squote :: v ++ [squote]) = false := by
    simp [pyIsDigitStr, List.all_cons, (by decide : Char.isDigit squote = false)]
  have hfilt : pyIsDigitStr ((squote :: v ++ [squote]).filter (fun c => !(c == '.'))) = false := by
    simp only [List.cons_append, List.filter_cons,
      (by decide : (!(squote == '.')) = true), if_true]
    simp [pyIsDigitStr, List.all_cons, (by decide : Char.isDigit squote = false)]
  unfold c2Scalar
  rw [hany, hdig, hfilt]
  simp only [Bool.false_eq_true, if_false]
  rw [aux_stripQuotes_wrap h₁ h₂]
theorem aux_c4_data :
    ∀ v : String, (c4Line v).data =
      '$' :: 'x' :: ' ' :: '=' :: ' ' :: squote :: v.data ++ [squote, ';'] :=
  fun _ => rfl

theorem aux_c2ParseLine_c4 {v : String}
    (hgood : v.data.all goodC4Char = true)
    (hq₁ : headNotB isQuoteChar v.data = true)
    (hq₂ : headNotB isQuoteChar v.data.reverse = true) :
    c2ParseLine c2Init (c4Line v) =
      .ok (c2Init, some ("x", C2Item.val (Value.str v))) := by
  have hgood' : ∀ c ∈ v.data, goodC4Char c = true := by
    intro c hc; exact List.all_eq_true.mp hgood c hc
  have hsemi : ∀ c ∈ v.data, (c == ';') = false ∧ (c == '\n') = false := by
    intro c hc
    have := hgood' c hc
    unfold goodC4Char at this
    simp only [Bool.not_eq_true', Bool.or_eq_false_iff] at this
    exact ⟨this.1.1, this.1.2⟩
  have hstrip : pyStrip ((c4Line v).data) = (c4Line v).data := by
    rw [aux_c4_data]
    rw [show '$' :: 'x' :: ' ' :: '=' :: ' ' :: squote :: v.data ++ [squote, ';'] =
      '$' :: (('x' :: ' ' :: '=' :: ' ' :: squote :: v.data ++ [squote]) ++ [';']) by
        simp [List.append_assoc]]
    exact aux_pyStrip_snoc_id (by decide) (by decide)
  unfold c2ParseLine
  rw [hstrip, aux_c4_data]
  have hmatch := aux_scalarMatch_c4 hsemi
  have hscal := aux_c2Scalar_quoted hgood' hq₁ hq₂
  have hsig : ∀ sg : Char, (('$' : Char) == sg) = false →
      ∀ rest : List Char, sigilArrayMatch sg ('$' :: rest) = Option.none := by
    intro sg h rest
    unfold sigilArrayMatch
    simp [h]
  simp only [List.cons_append, List.isEmpty_cons, List.head?_cons,
    (by decide : (('$' : Char) == '#') = false),
    c2Init, Option.isSome_none,
    Bool.false_eq_true, if_false, Bool.or_false, Bool.false_or,
    hsig '@' (by decide), hsig '%' (by decide)]
  simp only [aux_option_beq_some, (by decide : (('$' : Char) == '#') = false),
    Bool.false_eq_true, if_false]
  simp only [List.cons_append] at hmatch hscal
  rw [hmatch]
  simp only [hscal]
theorem aux_isExprChar_dollar {c : Char} (hie : isExprChar c = false) :
    (('$' : Char) == c) = false := by
  cases hcd : c == '$' with
  | false =>
      have : c ≠ '$' := by simpa using hcd
      simpa using fun he => this he.symm
  | true =>
      exfalso
      unfold isExprChar at hie
      simp [hcd] at hie

theorem aux_goodC4_isExpr {c : Char} (h : goodC4Char c = true) :
    isExprChar c = false := by
  unfold goodC4Char at h
  simp only [Bool.not_eq_true', Bool.or_eq_false_iff] at h
  exact h.2

theorem aux_p1ParseValue_quoted {vars : List (String × Value)} {v : List Char}
    (hgood : ∀ c ∈ v, goodC4Char c = true)
    (h₁ : headNotB isQuoteChar v = true) (h₂ : headNotB isQuoteChar v.reverse = true) :
    p1ParseValue vars (squote :: v ++ [squote]) =
      Except.ok (Value.str (String.mk v)) := by
  have hdol : ∀ c ∈ v, (('$' : Char) == c) = false := fun c hc =>
    aux_isExprChar_dollar (aux_goodC4_isExpr (hgood c hc))
  have hdig : pyIsDigitStr (squote :: v ++ [squote]) = false := by
    simp [pyIsDigitStr, List.all_cons, (by decide : Char.isDigit squote = false)]
  have hfilt : pyIsDigitStr ((squote :: v ++ [squote]).filter (fun c => !(c == '.'))) = false := by
    simp only [List.cons_append, List.filter_cons,
      (by decide : (!(squote == '.')) = true), if_true]
    simp [pyIsDigitStr, List.all_cons, (by decide : Char.isDigit squote = false)]
  have hcont : (squote :: v ++ [squote]).contains '$' = false := by
    simp only [List.contains_eq_any_beq, List.cons_append, List.any_cons,
      List.any_append, List.any_nil,
      (by decide : (('$' : Char) == squote) = false), Bool.false_or, Bool.or_false]
    simp only [List.any_eq_false]
    intro c hc
    simp [hdol c hc]
  unfold p1ParseValue
  rw [hdig, hfilt, hcont]
  simp only [Bool.false_eq_true, if_false]
  rw [aux_stripQuotes_wrap h₁ h₂]
theorem aux_p1ParseLine_c4 {v : String}
    (hgood : v.data.all goodC4Char = true)
    (hq₁ : headNotB isQuoteChar v.data = true)
    (hq₂ : headNotB isQuoteChar v.data.reverse = true) :
    p1ParseLine ⟨false, Option.none, [], []⟩ (c4Line v) =
      (⟨false, Option.none, [], [("x", Value.str v)]⟩,
        Except.ok (some ("x", Value.str v))) := by
  have hgood' : ∀ c ∈ v.data, goodC4Char c = true := by
    intro c hc; exact List.all_eq_true.mp hgood c hc
  have hsemi : ∀ c ∈ v.data, (c == ';') = false ∧ (c == '\n') = false := by
    intro c hc
    have := hgood' c hc
    unfold goodC4Char at this
    simp only [Bool.not_eq_true', Bool.or_eq_false_iff] at this
    exact ⟨this.1.1, this.1.2⟩
  have hstrip : pyStrip ((c4Line v).data) = (c4Line v).data := by
    rw [aux_c4_data]
    rw [show '$' :: 'x' :: ' ' :: '=' :: ' ' :: squote :: v.data ++ [squote, ';'] =
      '$' :: (('x' :: ' ' :: '=' :: ' ' :: squote :: v.data ++ [squote]) ++ [';']) by
        simp [List.append_assoc]]
    exact aux_pyStrip_snoc_id (by decide) (by decide)
  have hmatch := aux_scalarMatch_c4 hsemi
  have hval := @aux_p1ParseValue_quoted [] _ hgood' hq₁ hq₂
  unfold p1ParseLine
  rw [hstrip, aux_c4_data]
  simp only [List.cons_append, List.isEmpty_cons, List.head?_cons,
    aux_option_beq_some, (by decide : (('$' : Char) == '#') = false),
    Bool.false_eq_true, Bool.false_and, Bool.or_false, if_false]
  simp only [List.cons_append] at hmatch hval
  rw [hmatch]
  simp only [hval]
  rfl
/-- C4 amended: for every string `v` that contains none of the
expression-classifier characters `+ - * / $`, no statement terminator
`;`, no newline, and does not itself begin or end with a quote
character, the line `$x = 'v';` resolves `x` to exactly `v` with the
surrounding quotes stripped — in the two-pass collector
(`VariableCollector._parse_line`) and in the one-pass converter
(`PerlConfigConverter._parse_value`) alike.  For `v` outside these
conditions the claim fails (see the counterexample): a `v` containing
an operator character is classified as an expression and resolves to
the raw quoted text instead. -/
theorem C4_amended (v : String)
    (hgood : v.data.all goodC4Char = true)
    (hq₁ : headNotB isQuoteChar v.data = true)
    (hq₂ : headNotB isQuoteChar v.data.reverse = true) :
    c2CollectFromFile c2Init (some [c4Line v]) =
      (c2Init, [("x", Value.str v)], []) ∧
    (p1ConvertFile p1Init (some [c4Line v])).2 =
      Except.ok [("x", Value.str v)] := by
  constructor
  · have h := aux_c2ParseLine_c4 hgood hq₁ hq₂
    unfold c2CollectFromFile c2CollectGo
    rw [h]
    rfl
  · have h := aux_p1ParseLine_c4 hgood hq₁ hq₂
    unfold p1ConvertFile p1ConvertLines
    have : { p1Init with varStore := ([] : List (String × Value)) } =
        (⟨false, Option.none, [], []⟩ : P1State) := rfl
    rw [this, h]
    rfl

/-- Witness for C4 amended at `v = "hello world"`. -/
theorem C4_amended_witness :
    ("hello world".data.all goodC4Char = true ∧
      headNotB isQuoteChar "hello world".data = true ∧
      headNotB isQuoteChar "hello world".data.reverse = true) ∧
    (c2CollectFromFile c2Init (some [c4Line "hello world"]) =
        (c2Init, [("x", Value.str "hello world")], []) ∧
      (p1ConvertFile p1Init (some [c4Line "hello world"])).2 =
        Except.ok [("x", Value.str "hello world")]) :=
  ⟨⟨by decide, by decide, by decide⟩,
    C4_amended "hello world" (by decide) (by decide) (by decide)⟩
theorem aux_takeWhile_app {p : Char → Bool} {a : List Char} (b : List Char)
    (h : ∀ c ∈ a, p c = true) : (a ++ b).takeWhile p = a ++ b.takeWhile p := by
  induction a with
  | nil => simp
  | cons c cs ih =>
      simp only [List.cons_append, List.takeWhile_cons,
        h c (List.mem_cons_self _ _), if_true, List.cons.injEq, true_and]
      exact ih (fun d hd => h d (List.mem_cons_of_mem _ hd))

theorem aux_dropWhile_app {p : Char → Bool} {a : List Char} (b : List Char)
    (h : ∀ c ∈ a, p c = true) : (a ++ b).dropWhile p = b.dropWhile p := by
  induction a with
  | nil => simp
  | cons c cs ih =>
      simp only [List.cons_append, List.dropWhile_cons,
        h c (List.mem_cons_self _ _), if_true]
      exact ih (fun d hd => h d (List.mem_cons_of_mem _ hd))

theorem aux_splitOnChar_ne_nil (sep : Char) (l : List Char) :
    splitOnChar sep l ≠ [] := by
  induction l with
  | nil => simp [splitOnChar]
  | cons c cs ih =>
      unfold splitOnChar
      cases h : splitOnChar sep cs with
      | nil => simp
      | cons r rs => by_cases hc : (c == sep) = true <;> simp [hc]

theorem aux_splitOnChar_nocomma {a : List Char}
    (h : ∀ c ∈ a, (c == ',') = false) : splitOnChar ',' a = [a] := by
  induction a with
  | nil => rfl
  | cons c a₁ ih =>
      unfold splitOnChar
      rw [ih (fun d hd => h d (List.mem_cons_of_mem _ hd))]
      simp [h c (List.mem_cons_self _ _)]

theorem aux_splitOnChar_cons (sep c : Char) (cs : List Char) :
    splitOnChar sep (c :: cs) =
      match splitOnChar sep cs with
      | [] => [[c]]
      | r :: rs => if c == sep then [] :: r :: rs else (c :: r) :: rs := rfl

theorem aux_splitOnChar_append {a : List Char} (b : List Char)
    (h : ∀ c ∈ a, (c == ',') = false) :
    splitOnChar ',' (a ++ ',' :: b) = a :: splitOnChar ',' b := by
  induction a with
  | nil =>
      simp only [List.nil_append]
      rw [aux_splitOnChar_cons]
      cases hb : splitOnChar ',' b with
      | nil => exact absurd hb (aux_splitOnChar_ne_nil ',' b)
      | cons r rs => simp
  | cons c a₁ ih =>
      simp only [List.cons_append]
      rw [aux_splitOnChar_cons, ih (fun d hd => h d (List.mem_cons_of_mem _ hd))]
      simp [h c (List.mem_cons_self _ _)]

theorem aux_joinWith_cons_ne (sep : List Char) (x : List Char)
    {l : List (List Char)} (h : l ≠ []) :
    joinWith sep (x :: l) = x ++ sep ++ joinWith sep l := by
  cases l with
  | nil => exact absurd rfl h
  | cons y rest => rfl

theorem aux_mapLast_cons₂ (f : List Char → List Char) (x y : List Char)
    (rest : List (List Char)) :
    mapLast f (x :: y :: rest) = x :: mapLast f (y :: rest) := rfl

theorem aux_mapLast_snoc (f : List Char → List Char)
    (l : List (List Char)) (x : List Char) :
    mapLast f (l ++ [x]) = l ++ [f x] := by
  induction l with
  | nil => rfl
  | cons y l₁ ih =>
      cases l₁ with
      | nil => rfl
      | cons z l₂ =>
          rw [show ((y :: z :: l₂) ++ [x]) = y :: ((z :: l₂) ++ [x]) from rfl,
            show (z :: l₂) ++ [x] = z :: (l₂ ++ [x]) from rfl,
            aux_mapLast_cons₂]
          rw [show z :: (l₂ ++ [x]) = (z :: l₂) ++ [x] from rfl, ih]
          rfl
theorem aux_matchHeader_none {sigil c : Char} {cs : List Char}
    (h : (c == sigil) = false) :
    matchLiteralHeader sigil (c :: cs) = Option.none := by
  unfold matchLiteralHeader
  simp [h]

theorem aux_matchHeader_hit {name : List Char} (rest : List Char)
    (hn : name ≠ []) (hw : ∀ c ∈ name, isWordChar c = true) :
    matchLiteralHeader '@' ('@' :: (name ++ (' ' :: '=' :: ' ' :: '(' :: rest))) =
      some rest := by
  unfold matchLiteralHeader
  simp only []
  rw [aux_takeWhile_app _ hw]
  have ht : List.takeWhile isWordChar (' ' :: '=' :: ' ' :: '(' :: rest) = [] := by
    simp [List.takeWhile_cons, (by decide : isWordChar ' ' = false)]
  rw [ht, List.append_nil]
  simp only [(by decide : (('@' : Char) == '@') = true), if_true,
    List.isEmpty_eq_true, hn, if_false]
  rw [List.drop_left]
  simp [List.dropWhile_cons, (by decide : isPySpace ' ' = true),
    (by decide : isPySpace '=' = false), (by decide : isPySpace '(' = false)]

theorem aux_subHeaderAllF_id {s : List Char}
    (h : ∀ c ∈ s, (c == '@') = false) :
    ∀ fuel, subHeaderAllF '@' fuel s = s := by
  intro fuel
  induction fuel generalizing s with
  | zero => cases s <;> rfl
  | succ f ih =>
      cases s with
      | nil => rfl
      | cons c cs =>
          unfold subHeaderAllF
          rw [aux_matchHeader_none (h c (List.mem_cons_self _ _))]
          rw [ih (fun d hd => h d (List.mem_cons_of_mem _ hd))]

theorem aux_subHeaderAll_header {name : List Char} (rest : List Char)
    (hn : name ≠ []) (hw : ∀ c ∈ name, isWordChar c = true)
    (hr : ∀ c ∈ rest, (c == '@') = false) :
    subHeaderAll '@' ('@' :: (name ++ (' ' :: '=' :: ' ' :: '(' :: rest))) = rest := by
  unfold subHeaderAll
  unfold subHeaderAllF
  rw [aux_matchHeader_hit rest hn hw]
  exact aux_subHeaderAllF_id hr _

theorem aux_subTrailer_append {x : List Char}
    (h : ∀ c ∈ x, (c == ';') = false) :
    subTrailer (x ++ [')', ';']) = x := by
  induction x with
  | nil => decide
  | cons c x₁ ih =>
      unfold subTrailer
      have hh : ((x₁ ++ [')', ';']).head? == some ';') = false := by
        cases x₁ with
        | nil => decide
        | cons d x₂ =>
            simp only [List.cons_append, List.head?_cons, aux_option_beq_some]
            exact h d (List.mem_cons_of_mem _ (List.mem_cons_self _ _))
      simp only [List.cons_append, hh, Bool.and_false, Bool.false_eq_true, if_false]
      rw [ih (fun d hd => h d (List.mem_cons_of_mem _ hd))]

theorem aux_subComments_id {s : List Char}
    (h : ∀ c ∈ s, (c == '#') = false) :
    subComments s = s := by
  induction s with
  | nil => rfl
  | cons c cs ih =>
      unfold subComments
      simp only [h c (List.mem_cons_self _ _), Bool.false_eq_true, if_false]
      rw [ih (fun d hd => h d (List.mem_cons_of_mem _ hd))]

theorem aux_mem_joinWith {sep : List Char} {L : List (List Char)} {c : Char}
    (hc : c ∈ joinWith sep L) : c ∈ sep ∨ ∃ l ∈ L, c ∈ l := by
  induction L with
  | nil => simp [joinWith] at hc
  | cons x rest ih =>
      cases rest with
      | nil =>
          simp only [joinWith] at hc
          exact Or.inr ⟨x, List.mem_cons_self _ _, hc⟩
      | cons y rest₂ =>
          rw [aux_joinWith_cons_ne sep x (by simp)] at hc
          rcases List.mem_append.mp hc with h₁ | h₂
          · rcases List.mem_append.mp h₁ with h₃ | h₄
            · exact Or.inr ⟨x, List.mem_cons_self _ _, h₃⟩
            · exact Or.inl h₄
          · rcases ih h₂ with h₅ | ⟨l, hl, hcl⟩
            · exact Or.inl h₅
            · exact Or.inr ⟨l, List.mem_cons_of_mem _ hl, hcl⟩
theorem aux_goodItem_no {c d : Char} (h : goodItemChar c = true)
    (hd : d ∈ [',', '#', ';', '@', '\n']) : (c == d) = false := by
  cases hc : c == d with
  | false => rfl
  | true =>
      have hcd : c = d := eq_of_beq hc
      subst hcd
      unfold goodItemChar at h
      fin_cases hd <;> simp_all

theorem aux_space_no {c d : Char} (h : isPySpace c = true)
    (hd : d ∈ [',', '@', '#', ';']) : (c == d) = false := by
  cases hc : c == d with
  | false => rfl
  | true =>
      have hcd : c = d := eq_of_beq hc
      subst hcd
      fin_cases hd <;> simp_all [isPySpace]

theorem aux_pyStrip_allspace {pad : List Char}
    (h : ∀ c ∈ pad, isPySpace c = true) : pyStrip pad = [] := by
  unfold pyStrip dropEndWhile
  have : pad.dropWhile isPySpace = [] := by
    induction pad with
    | nil => rfl
    | cons c cs ih =>
        simp only [List.dropWhile_cons, h c (List.mem_cons_self _ _), if_true]
        exact ih (fun d hd => h d (List.mem_cons_of_mem _ hd))
  rw [this]
  rfl

theorem aux_pyStrip_pad {pad i : List Char}
    (hp : ∀ c ∈ pad, isPySpace c = true)
    (hh : headNotB isPySpace i = true)
    (hl : headNotB isPySpace i.reverse = true) :
    pyStrip (pad ++ i) = i := by
  unfold pyStrip dropEndWhile
  rw [aux_dropWhile_app _ hp, aux_dropWhile_head hh, aux_dropWhile_head hl,
    List.reverse_reverse]

theorem aux_cleanItem_pad {pad i : List Char}
    (hp : ∀ c ∈ pad, isPySpace c = true) (hne : i ≠ [])
    (hh : headNotB isPySpace i = true)
    (hl : headNotB isPySpace i.reverse = true) :
    cleanArrayItem (pad ++ i) = some (coerceNum (stripQuotes i)) := by
  unfold cleanArrayItem
  rw [aux_pyStrip_pad hp hh hl]
  simp [List.isEmpty_eq_true, hne]

theorem aux_cleanItem_space {pad : List Char}
    (hp : ∀ c ∈ pad, isPySpace c = true) : cleanArrayItem pad = Option.none := by
  unfold cleanArrayItem
  rw [aux_pyStrip_allspace hp]
  rfl
theorem aux_elems_single (items : List (List Char)) :
    ∀ pad : List Char, (∀ c ∈ pad, isPySpace c = true) →
    (∀ i ∈ items, i ≠ [] ∧ headNotB isPySpace i = true ∧
      headNotB isPySpace i.reverse = true ∧ ∀ c ∈ i, goodItemChar c = true) →
    (splitOnChar ',' (pad ++ joinWith [',', ' '] items)).filterMap cleanArrayItem
      = items.map (fun i => coerceNum (stripQuotes i)) := by
  induction items with
  | nil =>
      intro pad hp _
      have hnc : ∀ c ∈ pad, (c == ',') = false :=
        fun c hc => aux_space_no (hp c hc) (by simp)
      simp only [joinWith, List.append_nil, List.map_nil]
      rw [aux_splitOnChar_nocomma hnc]
      simp [List.filterMap_cons, aux_cleanItem_space hp]
  | cons i rest ih =>
      intro pad hp hi
      obtain ⟨hne, hh, hl, hcs⟩ := hi i (List.mem_cons_self _ _)
      have hnci : ∀ c ∈ pad ++ i, (c == ',') = false := by
        intro c hc
        rcases List.mem_append.mp hc with h | h
        · exact aux_space_no (hp c h) (by simp)
        · exact aux_goodItem_no (hcs c h) (by simp)
      cases rest with
      | nil =>
          simp only [joinWith, List.map_cons, List.map_nil]
          rw [aux_splitOnChar_nocomma hnci]
          simp [List.filterMap_cons, aux_cleanItem_pad hp hne hh hl]
      | cons j rest₂ =>
          rw [aux_joinWith_cons_ne [',', ' '] i (by simp)]
          rw [show pad ++ (i ++ [',', ' '] ++ joinWith [',', ' '] (j :: rest₂)) =
            (pad ++ i) ++ ',' :: (' ' :: joinWith [',', ' '] (j :: rest₂)) by
              simp [List.append_assoc]]
          rw [aux_splitOnChar_append _ hnci]
          rw [show (' ' :: joinWith [',', ' '] (j :: rest₂)) =
            [' '] ++ joinWith [',', ' '] (j :: rest₂) from rfl]
          simp only [List.filterMap_cons, aux_cleanItem_pad hp hne hh hl]
          rw [ih [' '] (by intro c hc; simp at hc; subst hc; decide)
            (fun k hk => hi k (List.mem_cons_of_mem _ hk))]
          rfl

theorem aux_elems_multi (items : List (List Char)) :
    ∀ pad : List Char, (∀ c ∈ pad, isPySpace c = true) →
    (∀ i ∈ items, i ≠ [] ∧ headNotB isPySpace i = true ∧
      headNotB isPySpace i.reverse = true ∧ ∀ c ∈ i, goodItemChar c = true) →
    (splitOnChar ','
        (pad ++ joinWith [' '] (items.map (fun i => i ++ [',']) ++ [[]]))).filterMap
        cleanArrayItem
      = items.map (fun i => coerceNum (stripQuotes i)) := by
  induction items with
  | nil =>
      intro pad hp _
      have hnc : ∀ c ∈ pad, (c == ',') = false :=
        fun c hc => aux_space_no (hp c hc) (by simp)
      simp only [List.map_nil, List.nil_append, joinWith, List.append_nil]
      rw [aux_splitOnChar_nocomma hnc]
      simp [List.filterMap_cons, aux_cleanItem_space hp]
  | cons i rest ih =>
      intro pad hp hi
      obtain ⟨hne, hh, hl, hcs⟩ := hi i (List.mem_cons_self _ _)
      have hnci : ∀ c ∈ pad ++ i, (c == ',') = false := by
        intro c hc
        rcases List.mem_append.mp hc with h | h
        · exact aux_space_no (hp c h) (by simp)
        · exact aux_goodItem_no (hcs c h) (by simp)
      simp only [List.map_cons, List.cons_append]
      rw [aux_joinWith_cons_ne [' '] (i ++ [','])
        (by simp)]
      rw [show pad ++ ((i ++ [',']) ++ [' '] ++
          joinWith [' '] (rest.map (fun i => i ++ [',']) ++ [[]])) =
        (pad ++ i) ++ ',' :: (' ' ::
          joinWith [' '] (rest.map (fun i => i ++ [',']) ++ [[]])) by
          simp [List.append_assoc]]
      rw [aux_splitOnChar_append _ hnci]
      rw [show (' ' :: joinWith [' '] (rest.map (fun i => i ++ [',']) ++ [[]])) =
        [' '] ++ joinWith [' '] (rest.map (fun i => i ++ [',']) ++ [[]]) from rfl]
      simp only [List.filterMap_cons, aux_cleanItem_pad hp hne hh hl]
      rw [ih [' '] (by intro c hc; simp at hc; subst hc; decide)
        (fun k hk => hi k (List.mem_cons_of_mem _ hk))]
theorem aux_mem_join_commaspace {items : List (List Char)} {c : Char}
    (hi : ∀ i ∈ items, ∀ d ∈ i, goodItemChar d = true)
    (hc : c ∈ joinWith [',', ' '] items) :
    goodItemChar c = true ∨ c = ',' ∨ c = ' ' := by
  rcases aux_mem_joinWith hc with h | ⟨l, hl, hcl⟩
  · simp at h
    rcases h with h | h
    · exact Or.inr (Or.inl h)
    · exact Or.inr (Or.inr h)
  · exact Or.inl (hi l hl c hcl)

theorem aux_mapFirst_cons (f : List Char → List Char) (x : List Char)
    (rest : List (List Char)) : mapFirst f (x :: rest) = f x :: rest := rfl

theorem aux_parseML_single (name : List Char) (items : List (List Char))
    (hn : name ≠ []) (hw : ∀ c ∈ name, isWordChar c = true)
    (hi : ∀ i ∈ items, i ≠ [] ∧ headNotB isPySpace i = true ∧
      headNotB isPySpace i.reverse = true ∧ ∀ c ∈ i, goodItemChar c = true) :
    parseMLArray ['@' :: (name ++ (' ' :: '=' :: ' ' :: '(' ::
        (joinWith [',', ' '] items ++ [')', ';'])))] =
      items.map (fun i => coerceNum (stripQuotes i)) := by
  have hic : ∀ i ∈ items, ∀ d ∈ i, goodItemChar d = true :=
    fun i hii => (hi i hii).2.2.2
  have hJ : ∀ c ∈ joinWith [',', ' '] items,
      goodItemChar c = true ∨ c = ',' ∨ c = ' ' :=
    fun c hc => aux_mem_join_commaspace hic hc
  have hJat : ∀ c ∈ joinWith [',', ' '] items ++ [')', ';'], (c == '@') = false := by
    intro c hc
    rcases List.mem_append.mp hc with h | h
    · rcases hJ c h with hg | hv | hv
      · exact aux_goodItem_no hg (by simp)
      · subst hv; decide
      · subst hv; decide
    · simp at h
      rcases h with h | h <;> (subst h; decide)
  have hJsemi : ∀ c ∈ joinWith [',', ' '] items, (c == ';') = false := by
    intro c hc
    rcases hJ c hc with hg | hv | hv
    · exact aux_goodItem_no hg (by simp)
    · subst hv; decide
    · subst hv; decide
  have hJhash : ∀ c ∈ joinWith [',', ' '] items, (c == '#') = false := by
    intro c hc
    rcases hJ c hc with hg | hv | hv
    · exact aux_goodItem_no hg (by simp)
    · subst hv; decide
    · subst hv; decide
  unfold parseMLArray
  simp only [mapFirst]
  rw [aux_subHeaderAll_header _ hn hw hJat]
  simp only [mapLast]
  rw [aux_subTrailer_append hJsemi]
  simp only [joinWith]
  rw [aux_subComments_id hJhash]
  simpa using aux_elems_single items [] (by simp) hi

theorem aux_parseML_multi (name : List Char) (items : List (List Char))
    (hn : name ≠ []) (hw : ∀ c ∈ name, isWordChar c = true)
    (hi : ∀ i ∈ items, i ≠ [] ∧ headNotB isPySpace i = true ∧
      headNotB isPySpace i.reverse = true ∧ ∀ c ∈ i, goodItemChar c = true) :
    parseMLArray (('@' :: (name ++ (' ' :: '=' :: ' ' :: '(' :: []))) ::
        items.map (fun i => i ++ [',']) ++ [[')', ';']]) =
      items.map (fun i => coerceNum (stripQuotes i)) := by
  have hic : ∀ i ∈ items, ∀ d ∈ i, goodItemChar d = true :=
    fun i hii => (hi i hii).2.2.2
  have hJhash : ∀ c ∈ ' ' ::
      joinWith [' '] (items.map (fun i => i ++ [',']) ++ [[]]), (c == '#') = false := by
    intro c hc
    rcases List.mem_cons.mp hc with h | h
    · subst h; decide
    · rcases aux_mem_joinWith h with hs | ⟨l, hl, hcl⟩
      · simp at hs; subst hs; decide
      · rcases List.mem_append.mp hl with hm | hm
        · rcases List.mem_map.mp hm with ⟨i, hii, hieq⟩
          subst hieq
          rcases List.mem_append.mp hcl with hci | hci
          · exact aux_goodItem_no (hic i hii c hci) (by simp)
          · simp at hci; subst hci; decide
        · simp at hm; subst hm; simp at hcl
  unfold parseMLArray
  simp only [List.cons_append]
  rw [aux_mapFirst_cons]
  rw [aux_subHeaderAll_header ([] : List Char) hn hw (by intro c hc; simp at hc)]
  rw [show (([] : List Char) :: (items.map (fun i => i ++ [',']) ++ [[')', ';']])) =
    (([] : List Char) :: items.map (fun i => i ++ [','])) ++ [[')', ';']] from rfl]
  rw [aux_mapLast_snoc]
  rw [show subTrailer [')', ';'] = [] from rfl]
  rw [show ((([] : List Char) :: items.map (fun i => i ++ [','])) ++ [[]]) =
    (([] : List Char) :: (items.map (fun i => i ++ [',']) ++ [[]])) from rfl]
  rw [aux_joinWith_cons_ne [' '] [] (by simp)]
  simp only [List.nil_append, List.singleton_append]
  rw [aux_subComments_id hJhash]
  rw [show (' ' :: joinWith [' '] (items.map (fun i => i ++ [',']) ++ [[]])) =
    [' '] ++ joinWith [' '] (items.map (fun i => i ++ [',']) ++ [[]]) from rfl]
  exact aux_elems_multi items [' '] (by intro c hc; simp at hc; subst hc; decide) hi
theorem aux_parenSemi_true (pre : List Char) :
    ([')', ';'].isSuffixOf (pre ++ [')', ';'])) = true := by
  unfold List.isSuffixOf
  rw [List.reverse_append]
  simp [List.isPrefixOf]

theorem aux_parenSemi_false {l : List Char} {c : Char} {rest : List Char}
    (h : l.reverse = c :: rest) (hc : ((';' : Char) == c) = false) :
    ([')', ';'].isSuffixOf l) = false := by
  unfold List.isSuffixOf
  rw [h]
  simp [List.isPrefixOf, hc]

theorem aux_sigilMatch_hit {name : List Char} (rest : List Char)
    (hn : name ≠ []) (hw : ∀ c ∈ name, isWordChar c = true) :
    sigilArrayMatch '@' ('@' :: (name ++ (' ' :: '=' :: ' ' :: '(' :: rest))) =
      some name := by
  unfold sigilArrayMatch
  simp only []
  rw [aux_takeWhile_app _ hw]
  have ht : List.takeWhile isWordChar (' ' :: '=' :: ' ' :: '(' :: rest) = [] := by
    simp [List.takeWhile_cons, (by decide : isWordChar ' ' = false)]
  rw [ht, List.append_nil]
  simp only [(by decide : (('@' : Char) == '@') = true), if_true,
    List.isEmpty_eq_true, hn, if_false]
  rw [List.drop_left]
  simp [List.dropWhile_cons, (by decide : isPySpace ' ' = true),
    (by decide : isPySpace '=' = false), (by decide : isPySpace '(' = false)]

theorem aux_c2CollectGo_items (items : List (List Char)) :
    ∀ (buf : List (List Char)) (nm : String) (vars : List (String × Value))
      (exprs : List (String × List Char)),
      nm.data ≠ [] →
      (∀ i ∈ items, i ≠ [] ∧ headNotB isPySpace i = true ∧
        headNotB isPySpace i.reverse = true ∧ ∀ c ∈ i, goodItemChar c = true) →
      c2CollectGo ⟨some "array", some nm, buf⟩ vars exprs
          (items.map (fun i => String.mk (i ++ [','])) ++ [String.mk [')', ';']]) =
        (c2Init, dset vars nm (Value.list (parseMLArray
          (buf ++ (items.map (fun i => i ++ [',']) ++ [[')', ';']])))), exprs) := by
  induction items with
  | nil =>
      intro buf nm vars exprs hnm _
      have hstrip : pyStrip ((String.mk [')', ';']).data) = [')', ';'] := rfl
      unfold c2CollectGo
      simp only [List.map_nil, List.nil_append]
      unfold c2ParseLine
      rw [hstrip]
      simp only [List.isEmpty_cons, List.head?_cons, aux_option_beq_some,
        (by decide : ((')' : Char) == '#') = false), Bool.false_eq_true, if_false,
        Option.isSome_some, if_true,
        (by decide : ([')', ';'].isSuffixOf [')', ';']) = true),
        (by decide : ((some "array" : Option String) == some "array") = true)]
      simp only [Bool.or_self, Bool.false_eq_true, if_false, Option.map_some',
        List.isEmpty_eq_true]
      rw [if_neg hnm]
      unfold c2CollectGo
      simp [List.map_nil, List.nil_append]
  | cons i rest ih =>
      intro buf nm vars exprs hnm hi
      obtain ⟨hne, hh, hl, hcs⟩ := hi i (List.mem_cons_self _ _)
      obtain ⟨hd, tl, hi_eq⟩ : ∃ hd tl, i = hd :: tl := by
        cases i with
        | nil => exact absurd rfl hne
        | cons a b => exact ⟨a, b, rfl⟩
      have hhd_space : isPySpace hd = false := by
        rw [hi_eq] at hh; simpa [headNotB] using hh
      have hhd_hash : (hd == '#') = false := by
        refine aux_goodItem_no ?_ (by simp)
        rw [hi_eq] at hcs
        exact hcs hd (List.mem_cons_self _ _)
      have hstrip : pyStrip ((String.mk (i ++ [','])).data) = i ++ [','] := by
        rw [hi_eq]
        exact aux_pyStrip_snoc_id hhd_space (by decide)
      have hsuf : ([')', ';'].isSuffixOf (i ++ [','])) = false := by
        refine @aux_parenSemi_false _ ',' i.reverse ?_ (by decide)
        rw [List.reverse_append]
        rfl
      unfold c2CollectGo
      unfold c2ParseLine
      simp only [List.map_cons, List.cons_append]
      rw [hstrip]
      rw [hi_eq]
      simp only [List.cons_append, List.isEmpty_cons, List.head?_cons,
        aux_option_beq_some, hhd_hash, Bool.false_eq_true, if_false,
        Option.isSome_some, if_true]
      rw [← List.cons_append, ← hi_eq]
      simp only [hsuf, Bool.false_eq_true, if_false]
      have := ih (buf ++ [i ++ [',']]) nm vars exprs hnm
        (fun k hk => hi k (List.mem_cons_of_mem _ hk))
      simp only [Bool.or_self, Bool.false_eq_true, if_false]
      rw [this]
      simp [List.append_assoc]
theorem aux_c2ParseLine_arrayStart {name : List Char} (hn : name ≠ [])
    (hw : ∀ c ∈ name, isWordChar c = true) :
    c2ParseLine c2Init
        (String.mk ('@' :: (name ++ (' ' :: '=' :: ' ' :: '(' :: [])))) =
      Except.ok (⟨some "array", some (String.mk name),
        ['@' :: (name ++ (' ' :: '=' :: ' ' :: '(' :: []))]⟩, Option.none) := by
  have hstrip : pyStrip ('@' :: (name ++ (' ' :: '=' :: ' ' :: '(' :: []))) =
      '@' :: (name ++ (' ' :: '=' :: ' ' :: '(' :: [])) := by
    rw [show '@' :: (name ++ (' ' :: '=' :: ' ' :: '(' :: [])) =
      '@' :: ((name ++ [' ', '=', ' ']) ++ ['(']) by simp]
    exact aux_pyStrip_snoc_id (by decide) (by decide)
  have hsuf : ([')', ';'].isSuffixOf
      ('@' :: (name ++ (' ' :: '=' :: ' ' :: '(' :: [])))) = false := by
    refine @aux_parenSemi_false _ '(' ((name ++ [' ', '=', ' ']).reverse ++ ['@']) ?_ (by decide)
    rw [show '@' :: (name ++ (' ' :: '=' :: ' ' :: '(' :: [])) =
      ('@' :: (name ++ [' ', '=', ' '])) ++ ['('] by simp]
    rw [List.reverse_append]
    simp
  unfold c2ParseLine
  rw [show (String.mk ('@' :: (name ++ (' ' :: '=' :: ' ' :: '(' :: [])))).data =
    '@' :: (name ++ (' ' :: '=' :: ' ' :: '(' :: [])) from rfl]
  rw [hstrip]
  simp only [List.isEmpty_cons, List.head?_cons, aux_option_beq_some,
    (by decide : (('@' : Char) == '#') = false), Bool.false_eq_true,
    Bool.or_self, if_false,
    (by rfl : c2Init.currentState.isSome = false)]
  rw [aux_sigilMatch_hit [] hn hw]
  simp only [hsuf, Bool.false_eq_true, if_false]
  rfl

theorem aux_c2ParseLine_singleLine {name : List Char} (J : List Char)
    (hn : name ≠ []) (hw : ∀ c ∈ name, isWordChar c = true) :
    c2ParseLine c2Init
        (String.mk ('@' :: (name ++ (' ' :: '=' :: ' ' :: '(' :: (J ++ [')', ';']))))) =
      Except.ok (c2Init, some (String.mk name, C2Item.val (Value.list
        (parseMLArray ['@' :: (name ++ (' ' :: '=' :: ' ' :: '(' :: (J ++ [')', ';'])))])))) := by
  have hstrip : pyStrip ('@' :: (name ++ (' ' :: '=' :: ' ' :: '(' :: (J ++ [')', ';'])))) =
      '@' :: (name ++ (' ' :: '=' :: ' ' :: '(' :: (J ++ [')', ';']))) := by
    rw [show '@' :: (name ++ (' ' :: '=' :: ' ' :: '(' :: (J ++ [')', ';']))) =
      '@' :: ((name ++ [' ', '=', ' ', '('] ++ J ++ [')']) ++ [';']) by simp]
    exact aux_pyStrip_snoc_id (by decide) (by decide)
  have hsuf : ([')', ';'].isSuffixOf
      ('@' :: (name ++ (' ' :: '=' :: ' ' :: '(' :: (J ++ [')', ';']))))) = true := by
    rw [show '@' :: (name ++ (' ' :: '=' :: ' ' :: '(' :: (J ++ [')', ';']))) =
      ('@' :: (name ++ [' ', '=', ' ', '('] ++ J)) ++ [')', ';'] by simp]
    exact aux_parenSemi_true _
  unfold c2ParseLine
  rw [show (String.mk ('@' :: (name ++ (' ' :: '=' :: ' ' :: '(' :: (J ++ [')', ';']))))).data =
    '@' :: (name ++ (' ' :: '=' :: ' ' :: '(' :: (J ++ [')', ';']))) from rfl]
  rw [hstrip]
  simp only [List.isEmpty_cons, List.head?_cons, aux_option_beq_some,
    (by decide : (('@' : Char) == '#') = false), Bool.false_eq_true,
    Bool.or_self, if_false,
    (by rfl : c2Init.currentState.isSome = false)]
  rw [aux_sigilMatch_hit (J ++ [')', ';']) hn hw]
  simp only [hsuf, if_true]
  simp [c2Init]
/-- C5: a multi-line array literal (the same items split across lines,
closed by a line ending in `);`) parses to the identical list as the
semantically equivalent single-line form, for every well-formed name
and item list: both runs of the collector produce exactly one
variable, the array name bound to the same element list (strip,
quote-strip, numeric coercion applied per item). -/
theorem C5_multiline_eq_singleline (name : String) (items : List String)
    (hn : goodNameB name = true) (hi : items.all goodItemB = true) :
    c2CollectFromFile c2Init (some (arrayMultiLines name items)) =
      (c2Init, [(name, Value.list (targetElems items))], []) ∧
    c2CollectFromFile c2Init (some [arraySingleLine name items]) =
      (c2Init, [(name, Value.list (targetElems items))], []) := by
  have hn₁ : name.data ≠ [] := by
    unfold goodNameB at hn
    simp only [Bool.and_eq_true] at hn
    intro h
    rw [h] at hn
    simp at hn
  have hn₂ : ∀ c ∈ name.data, isWordChar c = true := by
    unfold goodNameB at hn
    simp only [Bool.and_eq_true] at hn
    exact fun c hc => List.all_eq_true.mp hn.2 c hc
  have hid : ∀ i ∈ items.map String.data, i ≠ [] ∧ headNotB isPySpace i = true ∧
      headNotB isPySpace i.reverse = true ∧ ∀ c ∈ i, goodItemChar c = true := by
    intro i hmem
    rcases List.mem_map.mp hmem with ⟨s, hs, hseq⟩
    subst hseq
    have hgi := List.all_eq_true.mp hi s hs
    unfold goodItemB at hgi
    simp only [Bool.and_eq_true] at hgi
    refine ⟨?_, hgi.1.1.2, hgi.1.2, fun c hc => List.all_eq_true.mp hgi.2 c hc⟩
    intro h
    have := hgi.1.1.1
    rw [h] at this
    simp at this
  constructor
  · -- multi-line run
    unfold c2CollectFromFile arrayMultiLines
    unfold c2CollectGo
    simp only [List.cons_append]
    rw [aux_c2ParseLine_arrayStart hn₁ hn₂]
    simp only []
    rw [show (items.map (fun i => String.mk (i.data ++ [','])) ++ [String.mk [')', ';']]) =
      ((items.map String.data).map (fun i => String.mk (i ++ [','])) ++
        [String.mk [')', ';']]) by simp [List.map_map, Function.comp]]
    rw [aux_c2CollectGo_items (items.map String.data)
      ['@' :: (name.data ++ (' ' :: '=' :: ' ' :: '(' :: []))]
      (String.mk name.data) [] [] hn₁ hid]
    have hml := aux_parseML_multi name.data (items.map String.data) hn₁ hn₂ hid
    simp only [List.cons_append, List.singleton_append] at hml
    rw [show (['@' :: (name.data ++ (' ' :: '=' :: ' ' :: '(' :: []))] ++
        ((items.map String.data).map (fun i => i ++ [',']) ++ [[')', ';']])) =
      ('@' :: (name.data ++ (' ' :: '=' :: ' ' :: '(' :: []))) ::
        ((items.map String.data).map (fun i => i ++ [',']) ++ [[')', ';']]) from rfl]
    rw [hml]
    unfold targetElems
    simp [List.map_map, dset]
  · -- single-line run
    unfold c2CollectFromFile arraySingleLine
    unfold c2CollectGo
    rw [show String.mk ('@' :: name.data ++ " = (".data ++
        joinWith [',', ' '] (items.map String.data) ++ [')', ';']) =
      String.mk ('@' :: (name.data ++ (' ' :: '=' :: ' ' :: '(' ::
        (joinWith [',', ' '] (items.map String.data) ++ [')', ';'])))) by
      apply congrArg
      simp [List.append_assoc]]
    rw [aux_c2ParseLine_singleLine (joinWith [',', ' '] (items.map String.data)) hn₁ hn₂]
    simp only []
    have hms := aux_parseML_single name.data (items.map String.data) hn₁ hn₂ hid
    rw [hms]
    simp only [List.isEmpty_eq_true]
    rw [if_neg hn₁]
    unfold targetElems
    simp only [List.map_map, dset]
    unfold c2CollectGo
    rfl

/-- Witness for C5 at the array `@cfg = (10, 2.5, 'abc');` versus its
three-items-on-their-own-lines multi-line form. -/
theorem C5_multiline_eq_singleline_witness :
    (goodNameB "cfg" = true ∧ ["10", "2.5", "'abc'"].all goodItemB = true) ∧
    (c2CollectFromFile c2Init (some (arrayMultiLines "cfg" ["10", "2.5", "'abc'"])) =
        (c2Init, [("cfg", Value.list (targetElems ["10", "2.5", "'abc'"]))], []) ∧
      c2CollectFromFile c2Init (some [arraySingleLine "cfg" ["10", "2.5", "'abc'"]]) =
        (c2Init, [("cfg", Value.list (targetElems ["10", "2.5", "'abc'"]))], [])) :=
  ⟨⟨by decide, by decide⟩,
    C5_multiline_eq_singleline "cfg" ["10", "2.5", "'abc'"] (by decide) (by decide)⟩
theorem aux_digits_isDigit : ∀ (fuel n : Nat) (c : Char),
    c ∈ natDigitsRev fuel n → c.isDigit = true := by
  intro fuel
  induction fuel with
  | zero => intro n c hc; simp [natDigitsRev] at hc
  | succ f ih =>
      intro n c hc
      by_cases h : n < 10
      · simp only [natDigitsRev, h, if_true, List.mem_singleton] at hc
        subst hc
        interval_cases n <;> decide
      · simp only [natDigitsRev, h, if_false, List.mem_cons] at hc
        rcases hc with hc | hc
        · subst hc
          have hm : n % 10 < 10 := Nat.mod_lt _ (by norm_num)
          set m := n % 10 with hmdef
          interval_cases m <;> decide
        · exact ih (n / 10) c hc

theorem aux_strOfNat_digits {n : Nat} {c : Char}
    (hc : c ∈ strOfNat n) : c.isDigit = true := by
  unfold strOfNat at hc
  rw [List.mem_reverse] at hc
  exact aux_digits_isDigit _ _ _ hc

theorem aux_strOfNat_ne_nil (n : Nat) : strOfNat n ≠ [] := by
  unfold strOfNat natDigitsRev
  by_cases h : n < 10 <;> simp [h]

theorem aux_digitsToNat_snoc (l : List Char) (c : Char) :
    digitsToNat (l ++ [c]) = 10 * digitsToNat l + (c.toNat - 48) := by
  unfold digitsToNat
  rw [List.foldl_append]
  rfl

theorem aux_digitsToNat_rev : ∀ (fuel n : Nat), n < fuel →
    digitsToNat ((natDigitsRev fuel n).reverse) = n := by
  intro fuel
  induction fuel with
  | zero => intro n hn; exact absurd hn (Nat.not_lt_zero n)
  | succ f ih =>
      intro n hn
      by_cases h : n < 10
      · simp only [natDigitsRev, h, if_true, List.reverse_singleton]
        interval_cases n <;> decide
      · simp only [natDigitsRev, h, if_false, List.reverse_cons]
        rw [aux_digitsToNat_snoc]
        have hpos : 0 < n := by omega
        have hdiv : n / 10 < n := Nat.div_lt_self hpos (by norm_num)
        have hf : n / 10 < f := by omega
        rw [ih (n / 10) hf]
        have hm : n % 10 < 10 := Nat.mod_lt _ (by norm_num)
        have hch : (Char.ofNat (48 + n % 10)).toNat - 48 = n % 10 := by
          set m := n % 10 with hmdef
          interval_cases m <;> decide
        rw [hch]
        exact Nat.div_add_mod n 10

theorem aux_roundtrip (n : Nat) : digitsToNat (strOfNat n) = n := by
  unfold strOfNat
  exact aux_digitsToNat_rev (n + 1) n (Nat.lt_succ_self n)

theorem aux_strOfValue_natInt (n : Nat) :
    strOfValue (Value.int (n : Int)) = strOfNat n := by
  unfold strOfValue strOfInt
  simp only []
  rw [if_neg (by exact Int.not_lt.mpr (Int.ofNat_nonneg n))]
  rw [Int.natAbs_ofNat]

theorem aux_replaceAll_nodollar {nm r : List Char} :
    ∀ (fuel : Nat) (s : List Char), (∀ c ∈ s, (c == '$') = false) →
      replaceAllF ('$' :: nm) r fuel s = s := by
  intro fuel
  induction fuel with
  | zero => intro s _; cases s <;> rfl
  | succ f ih =>
      intro s hs
      cases s with
      | nil => rfl
      | cons c cs =>
          have hc : c ≠ '$' := by simpa using hs c (List.mem_cons_self _ _)
          have hpre : (('$' :: nm).isPrefixOf (c :: cs)) = false := by
            simp [List.isPrefixOf]
            intro he
            exact absurd he.symm hc
          unfold replaceAllF
          simp only [hpre, Bool.and_false, Bool.false_eq_true, if_false]
          rw [ih cs (fun d hd => hs d (List.mem_cons_of_mem _ hd))]
theorem aux_c10_nodollar_tail : ∀ c ∈ ('y' :: ' ' :: '+' :: ' ' :: '1' :: []),
    (c == '$') = false := by decide

theorem aux_c10_step1 (r : List Char) :
    pyReplace "$xy + 1".data ('$' :: "x".data) r = r ++ ('y' :: ' ' :: '+' :: ' ' :: '1' :: []) := by
  show replaceAllF ('$' :: "x".data) r (7 + 1)
      ('$' :: 'x' :: 'y' :: ' ' :: '+' :: ' ' :: '1' :: []) = _
  unfold replaceAllF
  rw [if_pos (by decide)]
  rw [show (('$' :: 'x' :: 'y' :: ' ' :: '+' :: ' ' :: '1' :: []).drop
    ('$' :: "x".data).length) = ('y' :: ' ' :: '+' :: ' ' :: '1' :: []) from rfl]
  rw [aux_replaceAll_nodollar 7 _ aux_c10_nodollar_tail]

theorem aux_c10_step2 {r : List Char} (hr : ∀ c ∈ r, (c == '$') = false)
    (r₂ : List Char) :
    pyReplace (r ++ ('y' :: ' ' :: '+' :: ' ' :: '1' :: [])) ('$' :: "xy".data) r₂ =
      r ++ ('y' :: ' ' :: '+' :: ' ' :: '1' :: []) := by
  unfold pyReplace
  refine aux_replaceAll_nodollar _ _ ?_
  intro c hc
  rcases List.mem_append.mp hc with h | h
  · exact hr c h
  · exact aux_c10_nodollar_tail c h

theorem aux_c10_step1r (r : List Char) :
    pyReplace "$xy + 1".data ('$' :: "xy".data) r = r ++ (' ' :: '+' :: ' ' :: '1' :: []) := by
  show replaceAllF ('$' :: "xy".data) r (7 + 1)
      ('$' :: 'x' :: 'y' :: ' ' :: '+' :: ' ' :: '1' :: []) = _
  unfold replaceAllF
  rw [if_pos (by decide)]
  rw [show (('$' :: 'x' :: 'y' :: ' ' :: '+' :: ' ' :: '1' :: []).drop
    ('$' :: "xy".data).length) = (' ' :: '+' :: ' ' :: '1' :: []) from rfl]
  rw [aux_replaceAll_nodollar 7 _ (by decide)]

theorem aux_c10_step2r {r : List Char} (hr : ∀ c ∈ r, (c == '$') = false)
    (r₂ : List Char) :
    pyReplace (r ++ (' ' :: '+' :: ' ' :: '1' :: [])) ('$' :: "x".data) r₂ =
      r ++ (' ' :: '+' :: ' ' :: '1' :: []) := by
  unfold pyReplace
  refine aux_replaceAll_nodollar _ _ ?_
  intro c hc
  rcases List.mem_append.mp hc with h | h
  · exact hr c h
  · simp at h
    rcases h with h | h | h | h <;> (subst h; decide)
theorem aux_lex_tail (f : Nat) :
    pyLexF (f + 5) (' ' :: '+' :: ' ' :: '1' :: []) =
      some [PyTok.plus, PyTok.num (Value.int 1)] := by
  show pyLexF ((f + 4) + 1) (' ' :: '+' :: ' ' :: '1' :: []) = _
  unfold pyLexF
  rw [if_pos (by decide)]
  show pyLexF ((f + 3) + 1) ('+' :: ' ' :: '1' :: []) = _
  unfold pyLexF
  rw [if_neg (by decide), if_neg (by decide), if_pos (by decide)]
  show (pyLexF ((f + 2) + 1) (' ' :: '1' :: [])).map _ = _
  unfold pyLexF
  rw [if_pos (by decide)]
  show (pyLexF ((f + 1) + 1) ('1' :: [])).map _ = _
  unfold pyLexF
  rw [if_neg (by decide), if_pos (by decide)]
  simp only [List.takeWhile_cons, (by decide : ('1' : Char).isDigit = true),
    if_true, List.takeWhile_nil, List.length_cons, List.length_nil,
    List.drop_succ_cons, List.drop_zero, List.drop_nil]
  show ((pyLexF (f + 1) []).map _).map _ = _
  unfold pyLexF
  rfl
theorem aux_lex_num_plus_one (n : Nat) :
    pyLexF ((strOfNat n ++ (' ' :: '+' :: ' ' :: '1' :: [])).length + 1)
        (strOfNat n ++ (' ' :: '+' :: ' ' :: '1' :: [])) =
      some [PyTok.num (Value.int (n : Int)), PyTok.plus, PyTok.num (Value.int 1)] := by
  obtain ⟨d, ds, hds⟩ : ∃ d ds, strOfNat n = d :: ds := by
    cases h : strOfNat n with
    | nil => exact absurd h (aux_strOfNat_ne_nil n)
    | cons a b => exact ⟨a, b, rfl⟩
  have hdig : ∀ c ∈ strOfNat n, Char.isDigit c = true := fun c hc => aux_strOfNat_digits hc
  have hd : d.isDigit = true := by
    refine hdig d ?_
    rw [hds]; exact List.mem_cons_self _ _
  have hdspace : isPySpace d = false := by
    cases hsp : isPySpace d with
    | false => rfl
    | true =>
        exfalso
        have hdd := hd
        have : d = ' ' ∨ d = '\t' ∨ d = '\n' ∨ d = '\r' ∨
            d = Char.ofNat 11 ∨ d = Char.ofNat 12 := by
          unfold isPySpace at hsp
          simp only [Bool.or_eq_true, beq_iff_eq] at hsp
          tauto
        rcases this with h | h | h | h | h | h <;> (subst h; simp at hdd)
  have htake : (strOfNat n ++ (' ' :: '+' :: ' ' :: '1' :: [])).takeWhile Char.isDigit =
      strOfNat n := by
    rw [aux_takeWhile_app _ hdig]
    simp [List.takeWhile_cons, (by decide : Char.isDigit ' ' = false)]
  have hdrop : (strOfNat n ++ (' ' :: '+' :: ' ' :: '1' :: [])).drop (strOfNat n).length =
      (' ' :: '+' :: ' ' :: '1' :: []) := List.drop_left _ _
  have hlen : (strOfNat n ++ (' ' :: '+' :: ' ' :: '1' :: [])).length = ds.length + 5 := by
    rw [hds]
    simp
  rw [hlen]
  rw [hds] at htake hdrop ⊢
  show pyLexF ((ds.length + 5) + 1) (d :: (ds ++ (' ' :: '+' :: ' ' :: '1' :: []))) = _
  unfold pyLexF
  rw [if_neg (by rw [hdspace]; simp)]
  rw [if_pos (by rw [hd]; simp)]
  simp only [← List.cons_append, htake, hdrop]
  have hlen₂ : (d :: ds).length = ds.length + 1 := by simp
  rw [show pyLexF (ds.length + 5) (' ' :: '+' :: ' ' :: '1' :: []) =
    some [PyTok.plus, PyTok.num (Value.int 1)] from aux_lex_tail ds.length]
  have hval : digitsToNat (d :: ds) = n := by
    rw [← hds]; exact aux_roundtrip n
  rw [hval]
  rfl
theorem aux_pRun_add (f : Nat) (a b : Int) :
    pRun (f + 8) PMode.expr [PyTok.num (Value.int a), PyTok.plus, PyTok.num (Value.int b)] =
      some (Value.int (a + b), []) := by
  simp [pRun, vAdd]

theorem aux_pyEval_num_plus_one (n : Nat) :
    pyEval (strOfNat n ++ (' ' :: '+' :: ' ' :: '1' :: [])) =
      some (Value.int ((n : Int) + 1)) := by
  unfold pyEval
  rw [aux_lex_num_plus_one n]
  simp only []
  rw [show ([PyTok.num (Value.int (n : Int)), PyTok.plus,
    PyTok.num (Value.int 1)].length + 2) * 8 = 32 + 8 by simp]
  rw [aux_pRun_add 32 (n : Int) 1]
/-- C10: `ExpressionEvaluator.evaluate` substitutes variables by plain
textual replacement of `"$" + name` in store insertion order, for all
values `vx`, `vxy`.  With `x` before `xy` in the store, substituting
into `$xy + 1` rewrites the `$x` portion of the `$xy` token, giving
`str(vx) ++ "y + 1"`; `xy`'s value is never used, the allow-list then
fails on the stray `y`, and the original text comes back.  With the
insertion order reversed, `$xy` is substituted first and the
expression evaluates to `vxy + 1`: the result depends on store
insertion order exactly as claimed. -/
theorem C10_prefix_substitution (vx vxy : Nat) :
    eeSubst [("x", Value.int (vx : Int)), ("xy", Value.int (vxy : Int))]
        "$xy + 1".data = strOfNat vx ++ ('y' :: ' ' :: '+' :: ' ' :: '1' :: []) ∧
    eeEvaluate [("x", Value.int (vx : Int)), ("xy", Value.int (vxy : Int))]
        "$xy + 1" = Value.str "$xy + 1" ∧
    eeEvaluate [("xy", Value.int (vxy : Int)), ("x", Value.int (vx : Int))]
        "$xy + 1" = Value.int ((vxy : Int) + 1) := by
  have hxdig : ∀ c ∈ strOfNat vx, (c == '$') = false := by
    intro c hc
    have hd := aux_strOfNat_digits hc
    cases hcd : c == '$' with
    | false => rfl
    | true =>
        exfalso
        have : c = '$' := eq_of_beq hcd
        subst this
        simp at hd
  have hydig : ∀ c ∈ strOfNat vxy, (c == '$') = false := by
    intro c hc
    have hd := aux_strOfNat_digits hc
    cases hcd : c == '$' with
    | false => rfl
    | true =>
        exfalso
        have : c = '$' := eq_of_beq hcd
        subst this
        simp at hd
  have hsub₁ : eeSubst [("x", Value.int (vx : Int)), ("xy", Value.int (vxy : Int))]
      "$xy + 1".data = strOfNat vx ++ ('y' :: ' ' :: '+' :: ' ' :: '1' :: []) := by
    unfold eeSubst
    simp only [List.foldl_cons, List.foldl_nil, aux_strOfValue_natInt]
    rw [aux_c10_step1 (strOfNat vx)]
    exact aux_c10_step2 hxdig _
  refine ⟨hsub₁, ?_, ?_⟩
  · have hbad : ((strOfNat vx ++ ('y' :: ' ' :: '+' :: ' ' :: '1' :: [])).all
        allowedChar) = false := by
      rw [List.all_append]
      simp [List.all_cons, (by decide : allowedChar 'y' = false)]
    unfold eeEvaluate
    rw [hsub₁]
    simp only [hbad, Bool.false_eq_true, if_false]
  · have hsub₂ : eeSubst [("xy", Value.int (vxy : Int)), ("x", Value.int (vx : Int))]
        "$xy + 1".data = strOfNat vxy ++ (' ' :: '+' :: ' ' :: '1' :: []) := by
      unfold eeSubst
      simp only [List.foldl_cons, List.foldl_nil, aux_strOfValue_natInt]
      rw [aux_c10_step1r (strOfNat vxy)]
      exact aux_c10_step2r hydig _
    have hok : ((strOfNat vxy ++ (' ' :: '+' :: ' ' :: '1' :: [])).all
        allowedChar) = true := by
      rw [List.all_append]
      refine (Bool.and_eq_true _ _).mpr ⟨?_, by decide⟩
      rw [List.all_eq_true]
      intro c hc
      have hd := aux_strOfNat_digits hc
      unfold allowedChar
      rw [hd]
      rfl
    unfold eeEvaluate
    rw [hsub₂]
    simp only [hok, if_true]
    rw [aux_pyEval_num_plus_one vxy]
